import Mathlib

/-!
Verification of the elliptic-curve core of the cipher-arc repository.

The definitions below are a shallow embedding of the TypeScript module
`ellipticCurve.ts` (point arithmetic, Tonelli-Shanks square roots, ECDH and
ECDSA).  Conventions of the embedding:

* JavaScript numbers are modelled as exact integers (`Int`).  All realistic
  uses in this code base stay far below 2^53, where JavaScript number
  arithmetic is exact; JavaScript's 32-bit truncation in bitwise operators is
  modelled exactly in `simpleHash` (`toInt32`) and elided in `scalarMultiply`
  (where `k & 1` and `k >>= 1` agree with exact parity and halving for
  `0 < k < 2^31`).
* JavaScript `%` is truncated remainder, i.e. `Int.tmod`; `Math.floor(a / b)`
  on integers is `Int.fdiv`.
* `while` loops are embedded as structurally recursive functions with an
  explicit fuel argument; every top-level entry point supplies fuel that is
  provably sufficient for the loop to reach its exit condition, so the
  fuel-exhausted branches are unreachable (they correspond to iteration
  counts the source loop can never attain, or to inputs on which the source
  loop diverges, as noted locally).
* A TypeScript `Point` has nullable coordinates; arithmetic applied to a
  `null` coordinate behaves as `0` in JavaScript, hence the `Option.getD 0`
  reads.  The non-finite-field mode (`useFp = false`) performs IEEE
  floating-point arithmetic and is not modelled; every statement below is
  about curves with `useFp = true`, and the embedded functions return their
  guard values on the unmodelled branch.
* Message strings are modelled as their lists of UTF-16 code units
  (`List Int`), which is exactly what `charCodeAt` iterates over.
* The random nonce drawn by `generatePrivateKey n` inside `signMessage` is
  modelled by an explicit list of nonce realisations, one consumed per
  signing attempt; `generatePrivateKey n` returns exactly the integers in
  `[1, n-1]`.  (The dead re-draw of `k` in the point-at-infinity retry branch
  of the source has no observable effect and is not modelled.)
-/

namespace CipherArc

/-- Affine or infinite point, mirroring the TypeScript `Point` interface with
its nullable coordinates and explicit infinity flag. -/
structure Point where
  x : Option Int
  y : Option Int
  isInfinity : Bool
deriving DecidableEq

/-- Curve parameters, mirroring the TypeScript `CurveParams` interface. -/
structure CurveParams where
  a : Int
  b : Int
  p : Int
  G : Point
  n : Int
  useFp : Bool
deriving DecidableEq

/-- The default curve configuration shipped by the module. -/
def defaultCurve : CurveParams :=
  { a := -7, b := 10, p := 223
    G := { x := some 47, y := some 71, isInfinity := false }
    n := 227, useFp := true }

/-- The distinguished point at infinity. -/
def POINT_AT_INFINITY : Point := { x := none, y := none, isInfinity := true }

/-- Canonical non-negative residue, `((n % m) + m) % m` with JavaScript's
truncated `%`. -/
def mod (n m : Int) : Int := ((n.tmod m) + m).tmod m

/-- Loop body of `modInverse` (extended Euclidean algorithm).  The source
`while (r !== 0)` loop is given fuel; `|r|` strictly decreases at every
iteration, so `|m| + 1` units of fuel always suffice (for `m = 0` the source
diverges into NaN arithmetic; that call never occurs). -/
def egcdGo : Nat → Int → Int → Int → Int → Int
  | 0, _, _, old_s, _ => old_s
  | fuel+1, old_r, r, old_s, s =>
    if r = 0 then old_s
    else
      let quotient := old_r.fdiv r
      egcdGo fuel r (old_r - quotient * r) s (old_s - quotient * s)

/-- Modular inverse via the extended Euclidean algorithm, as in the source. -/
def modInverse (a m : Int) : Int := mod (egcdGo (m.natAbs + 1) a m 1 0) m

/-- Loop body of `modPow` (square and multiply); the exponent at least halves
every iteration, so `|exp| + 1` units of fuel always suffice. -/
def modPowGo : Nat → Int → Int → Int → Int → Int
  | 0, result, _, _, _ => result
  | fuel+1, result, base, exp, m =>
    if exp > 0 then
      let result' := if exp.tmod 2 = 1 then (result * base).tmod m else result
      modPowGo fuel result' ((base * base).tmod m) (exp.fdiv 2) m
    else result

/-- Binary modular exponentiation `(base ^ exp) % mod`, as in the source. -/
def modPow (base exp m : Int) : Int := modPowGo (exp.natAbs + 1) 1 (base.tmod m) exp m

/-- Extraction of the odd part: the source loop `while (s % 2 === 0)`. -/
def factorTwos : Nat → Int → Int → Int × Int
  | 0, s, e => (s, e)
  | fuel+1, s, e => if s.tmod 2 = 0 then factorTwos fuel (s.fdiv 2) (e + 1) else (s, e)

/-- Search for a quadratic non-residue: the source loop incrementing `q`. -/
def findNonResidue : Nat → Int → Int → Int
  | 0, q, _ => q
  | fuel+1, q, p => if modPow q ((p - 1).fdiv 2) p = 1 then findNonResidue fuel (q + 1) p else q

/-- The inner `for (m = 0; m < r; m++)` loop of Tonelli-Shanks, returning the
exit value of `m`. -/
def tonelliM (p : Int) : Nat → Int → Int → Int → Int
  | 0, _, m, _ => m
  | fuel+1, t, m, r =>
    if m < r then (if t = 1 then m else tonelliM p fuel (modPow t 2 p) (m + 1) r) else m

/-- The outer `while (true)` loop of Tonelli-Shanks.  `r` strictly decreases
across iterations whenever the inner loop breaks early, so fuel `e + 1`
suffices; if the inner loop runs to completion with `m = r ≠ 0` the source
performs a negative shift and then loops forever, which cannot happen for an
odd prime modulus and is modelled by the empty result. -/
def tonelliLoop (p : Int) : Nat → Int → Int → Int → Int → List Int
  | 0, _, _, _, _ => []
  | fuel+1, x, b, g, r =>
    let m := tonelliM p (r.toNat + 1) b 0 r
    if m = 0 then [x, p - x]
    else if m < r then
      let gs := modPow g (2 ^ (r - m - 1).toNat) p
      let g' := (gs * gs).tmod p
      tonelliLoop p fuel ((x * gs).tmod p) ((b * g').tmod p) g' m
    else []

/-- Tonelli-Shanks modular square root, as in the source: the `p = 2` case,
the Euler-criterion test, the `p ≡ 3 (mod 4)` closed form, and the general
loop. -/
def modSqrt (n p : Int) : List Int :=
  let n1 := mod n p
  if p = 2 then [n1]
  else if modPow n1 ((p - 1).fdiv 2) p ≠ 1 then []
  else if p.tmod 4 = 3 then
    let r := modPow n1 ((p + 1).fdiv 4) p
    [r, p - r]
  else
    let se := factorTwos ((p - 1).natAbs + 1) (p - 1) 0
    let q := findNonResidue p.natAbs 2 p
    let x := modPow n1 ((se.1 + 1).fdiv 2) p
    let b := modPow n1 se.1 p
    let g := modPow q se.1 p
    tonelliLoop p (se.2.toNat + 1) x b g se.2

/-- Curve membership test, finite-field branch of the source `isOnCurve`. -/
def isOnCurve (point : Point) (curve : CurveParams) : Bool :=
  if point.isInfinity then true
  else if point.x = none ∨ point.y = none then false
  else
    let px := point.x.getD 0
    let py := point.y.getD 0
    if curve.useFp then
      mod (py * py) curve.p == mod (px * px * px + curve.a * px + curve.b) curve.p
    else false

/-- The group-law candidate of the source `addPoints` (finite-field branch):
identity rules, the additive-inverse rule, tangent doubling with the
vertical-tangent guard, and the chord rule, with all divisions performed as
multiplication by `modInverse`. -/
def addPoints (P Q : Point) (curve : CurveParams) : Point :=
  if P.isInfinity then Q
  else if Q.isInfinity then P
  else if P.x = Q.x ∧ P.y ≠ Q.y then POINT_AT_INFINITY
  else
    let px := P.x.getD 0
    let py := P.y.getD 0
    let qx := Q.x.getD 0
    let qy := Q.y.getD 0
    if curve.useFp then
      let slope? : Option Int :=
        if P.x = Q.x ∧ P.y = Q.y then
          if py = 0 then none
          else
            let numerator := mod (3 * px * px + curve.a) curve.p
            let denominator := mod (2 * py) curve.p
            some (mod (numerator * modInverse denominator curve.p) curve.p)
        else
          let numerator := mod (qy - py) curve.p
          let denominator := mod (qx - px) curve.p
          some (mod (numerator * modInverse denominator curve.p) curve.p)
      match slope? with
      | none => POINT_AT_INFINITY
      | some slope =>
        let x3 := mod (slope * slope - px - qx) curve.p
        let y3 := mod (slope * (px - x3) - py) curve.p
        { x := some x3, y := some y3, isInfinity := false }
    else POINT_AT_INFINITY

/-- The double-and-add loop of `scalarMultiply`; `k` at least halves every
iteration, so `|k| + 1` units of fuel always suffice. -/
def scalarLoop (curve : CurveParams) : Nat → Point → Point → Int → Point
  | 0, result, _, _ => result
  | fuel+1, result, addend, k =>
    if k > 0 then
      let result' := if k.tmod 2 = 1 then addPoints result addend curve else result
      scalarLoop curve fuel result' (addPoints addend addend curve) (k.fdiv 2)
    else result

/-- Scalar multiplication `k * P` by double-and-add, as in the source. -/
def scalarMultiply (k : Int) (P : Point) (curve : CurveParams) : Point :=
  if k = 0 ∨ P.isInfinity then POINT_AT_INFINITY
  else scalarLoop curve (k.natAbs + 1) POINT_AT_INFINITY P k

/-- Public key `d * G`, as in the source. -/
def computePublicKey (privateKey : Int) (curve : CurveParams) : Point :=
  scalarMultiply privateKey curve.G curve

/-- ECDH shared secret `d_self * Q_other`, as in the source. -/
def deriveSharedSecret (privateKey : Int) (publicKey : Point) (curve : CurveParams) : Point :=
  scalarMultiply privateKey publicKey curve

/-- Truncation to a signed 32-bit integer, the effect of JavaScript `| 0`. -/
def toInt32 (x : Int) : Int := (x + 2 ^ 31).emod (2 ^ 32) - 2 ^ 31

/-- The rolling checksum `simpleHash` over the UTF-16 code units of the
message: `hash = ((hash << 5) - hash + c) | 0` in 32-bit arithmetic, then
`Math.abs`. -/
def simpleHash (message : List Int) : Int :=
  ((message.foldl (fun hash c => toInt32 (toInt32 (hash * 32) - hash + c)) 0).natAbs : Int)

/-- Linear search for the least s with s * s ≥ p. -/
def ceilSqrtGo (p : Nat) : Nat → Nat → Nat
  | 0, s => s
  | fuel+1, s => if p ≤ s * s then s else ceilSqrtGo p fuel (s + 1)

/-- The value of `Math.ceil(Math.sqrt(p))` for the (small, non-negative)
moduli this code uses, where the floating-point square root is exact enough
for ceiling extraction: the least s with s² ≥ p. -/
def ceilSqrtInt (p : Int) : Int := (ceilSqrtGo p.toNat (p.toNat + 1) 0 : Nat)

/-- The order-recovery loop shared by `signMessage` and `verifySignature`:
repeated addition of `G` until infinity is reached or the bound passes
`limit`.  The iteration count is at most `limit + 1`, so the supplied fuel
always suffices. -/
def orderLoop (curve : CurveParams) (limit : Int) : Nat → Point → Int → Int
  | 0, _, order => order
  | fuel+1, Q, order =>
    if ¬Q.isInfinity ∧ order ≤ limit then
      orderLoop curve limit fuel (addPoints Q curve.G curve) (order + 1)
    else order

/-- The group order actually used by signing and verification: the configured
`curve.n` when it annihilates `G` under `scalarMultiply`, otherwise the order
recovered by repeated addition up to `p + 2 * ceil(sqrt p) + 10`. -/
def orderFor (curve : CurveParams) : Int :=
  if (scalarMultiply curve.n curve.G curve).isInfinity then curve.n
  else
    let limit := curve.p + 2 * ceilSqrtInt curve.p + 10
    orderLoop curve limit (limit.toNat + 2) curve.G 1

/-- An ECDSA signature, mirroring the TypeScript `Signature` interface. -/
structure Signature where
  r : Int
  s : Int
deriving DecidableEq

/-- ECDSA signing, as in the source: recover the working order, hash and
reduce, consume one nonce per attempt, and retry (with the corrected order
stored back into the curve) on a degenerate `kG`, `r = 0` or `s = 0`.  The
result is `none` when every supplied nonce realisation leads to a retry,
which corresponds to the source recursing again. -/
def signMessage (message : List Int) (privateKey : Int) (curve : CurveParams) :
    List Int → Option Signature
  | [] => none
  | k :: ks =>
    let n := orderFor curve
    let z := (simpleHash message).tmod n
    let kG := scalarMultiply k curve.G curve
    if kG.isInfinity ∨ kG.x = none then
      signMessage message privateKey { curve with n := n } ks
    else
      let r := mod (kG.x.getD 0) n
      if r = 0 then signMessage message privateKey { curve with n := n } ks
      else
        let kInv := modInverse k n
        let s := mod (kInv * (z + r * privateKey)) n
        if s = 0 then signMessage message privateKey { curve with n := n } ks
        else some { r := r, s := s }

/-- ECDSA verification, as in the source: recover the working order, reject
out-of-range `r` or `s`, recompute the reduced hash, form
`u1 * G + u2 * Q`, reject infinity, and compare `x mod n` with `r`. -/
def verifySignature (message : List Int) (signature : Signature) (publicKey : Point)
    (curve : CurveParams) : Bool :=
  let n := orderFor curve
  if signature.r ≤ 0 ∨ signature.r ≥ n ∨ signature.s ≤ 0 ∨ signature.s ≥ n then false
  else
    let z := (simpleHash message).tmod n
    let w := modInverse signature.s n
    let u1 := mod (z * w) n
    let u2 := mod (signature.r * w) n
    let u1G := scalarMultiply u1 curve.G curve
    let u2Q := scalarMultiply u2 publicKey curve
    let point := addPoints u1G u2Q curve
    if point.isInfinity ∨ point.x = none then false
    else mod (point.x.getD 0) n == signature.r

/-- A point is canonically represented for a curve: it is marked as the
point at infinity, or it is an affine point whose coordinates are the
canonical residues in `[0, p)`. -/
def canonicalPoint (P : Point) (c : CurveParams) : Prop :=
  P.isInfinity = true ∨
    ∃ gx gy : Int, P = { x := some gx, y := some gy, isInfinity := false } ∧
      0 ≤ gx ∧ gx < c.p ∧ 0 ≤ gy ∧ gy < c.p

/-! ### Elementary facts about the modular-arithmetic helpers -/

theorem tmod_bounds (n : Int) {m : Int} (hm : 0 < m) : -m < n.tmod m ∧ n.tmod m < m := by
  rcases le_or_lt 0 n with h | h
  · exact ⟨by have := Int.tmod_nonneg m h; omega, Int.tmod_lt_of_pos n hm⟩
  · have hn : (0 : Int) ≤ -n := by omega
    have e : n.tmod m = -((-n).tmod m) := by
      rw [Int.tmod_def, Int.tmod_def, Int.neg_tdiv]; ring
    have h1 := Int.tmod_nonneg m hn
    have h2 := Int.tmod_lt_of_pos (-n) hm
    omega

theorem mod_eq_emod (n : Int) {m : Int} (hm : 0 < m) : mod n m = n % m := by
  have hb := tmod_bounds n hm
  have h0 : 0 ≤ n.tmod m + m := by omega
  have h1 : mod n m = (n.tmod m + m) % m := by
    rw [mod, Int.tmod_eq_emod h0 (le_of_lt hm)]
  have h2 : n.tmod m + m = n + m * (1 - n.tdiv m) := by rw [Int.tmod_def]; ring
  rw [h1, h2, Int.add_mul_emod_self_left]

theorem mod_nonneg (n : Int) {m : Int} (hm : 0 < m) : 0 ≤ mod n m := by
  rw [mod_eq_emod n hm]; exact Int.emod_nonneg n (by omega)

theorem mod_lt (n : Int) {m : Int} (hm : 0 < m) : mod n m < m := by
  rw [mod_eq_emod n hm]; exact Int.emod_lt_of_pos n hm

theorem mod_of_range {a m : Int} (h0 : 0 ≤ a) (h1 : a < m) : mod a m = a := by
  rw [mod_eq_emod a (lt_of_le_of_lt h0 h1)]; exact Int.emod_eq_of_lt h0 h1

/-! ### The embedded operations depend only on the fields they read -/

theorem addPoints_ext {c c' : CurveParams} (ha : c.a = c'.a) (hp : c.p = c'.p)
    (hf : c.useFp = c'.useFp) (P Q : Point) : addPoints P Q c = addPoints P Q c' := by
  unfold addPoints
  rw [ha, hp, hf]

theorem scalarLoop_ext {c c' : CurveParams} (ha : c.a = c'.a) (hp : c.p = c'.p)
    (hf : c.useFp = c'.useFp) :
    ∀ (fuel : Nat) (R A : Point) (k : Int), scalarLoop c fuel R A k = scalarLoop c' fuel R A k := by
  intro fuel
  induction fuel with
  | zero => intro R A k; rfl
  | succ fuel ih =>
      intro R A k
      simp only [scalarLoop, addPoints_ext ha hp hf, ih]

theorem scalarMultiply_ext {c c' : CurveParams} (ha : c.a = c'.a) (hp : c.p = c'.p)
    (hf : c.useFp = c'.useFp) (k : Int) (P : Point) :
    scalarMultiply k P c = scalarMultiply k P c' := by
  unfold scalarMultiply
  rw [scalarLoop_ext ha hp hf]

theorem orderLoop_ext {c c' : CurveParams} (ha : c.a = c'.a) (hp : c.p = c'.p)
    (hf : c.useFp = c'.useFp) (hG : c.G = c'.G) (limit : Int) :
    ∀ (fuel : Nat) (Q : Point) (order : Int),
      orderLoop c limit fuel Q order = orderLoop c' limit fuel Q order := by
  intro fuel
  induction fuel with
  | zero => intro Q order; rfl
  | succ fuel ih =>
      intro Q order
      simp only [orderLoop, addPoints_ext ha hp hf, hG, ih]

theorem orderFor_update (c : CurveParams) : orderFor { c with n := orderFor c } = orderFor c := by
  by_cases h : (scalarMultiply c.n c.G c).isInfinity
  · have hc : orderFor c = c.n := by rw [orderFor, if_pos h]
    rw [hc]
    have he : ({ c with n := c.n } : CurveParams) = c := by cases c; rfl
    rw [he]
    exact hc
  · have hrec : orderFor c =
        orderLoop c (c.p + 2 * ceilSqrtInt c.p + 10) ((c.p + 2 * ceilSqrtInt c.p + 10).toNat + 2)
          c.G 1 := by
      rw [orderFor, if_neg h]
    by_cases h' : (scalarMultiply (orderFor c) c.G { c with n := orderFor c }).isInfinity
    · rw [orderFor, if_pos h']
    · rw [orderFor, if_neg h']
      rw [@orderLoop_ext { c with n := orderFor c } c rfl rfl rfl rfl]
      exact hrec.symm

/-! ### Claim theorems: concrete evaluations and counterexamples -/

/-- Claim C9: on the default finite-field curve (a = -7, b = 10, p = 223),
adding the affine points (192, 105) and (17, 56) yields (170, 142). -/
theorem addPoints_concrete_vector :
    addPoints { x := some 192, y := some 105, isInfinity := false }
        { x := some 17, y := some 56, isInfinity := false } defaultCurve =
      { x := some 170, y := some 142, isInfinity := false } := by decide

set_option maxRecDepth 40000 in
/-- Claim C6 (divergence witness): on the default curve the configured order
227 does not annihilate the configured base point: scalarMultiply(227, G)
returns the affine point (153, 146), not infinity, and the configured base
point (47, 71) does not even satisfy the default curve equation. -/
theorem scalarMultiply_order_default_not_infinity :
    scalarMultiply 227 defaultCurve.G defaultCurve =
        { x := some 153, y := some 146, isInfinity := false } ∧
      isOnCurve defaultCurve.G defaultCurve = false ∧
      orderFor defaultCurve = 217 := by decide

/-- Claim C4 (divergence witness): 0 is a square modulo the odd prime 3
(indeed mod (0 * 0) 3 = mod 0 3), yet modSqrt 0 3 returns the empty list, so
the empty result does not characterise non-residues. -/
theorem modSqrt_zero_residue_empty :
    modSqrt 0 3 = [] ∧ mod (0 * 0) 3 = mod 0 3 := by decide

/-- Claim C5 (divergence witness): for n ≡ 0 modulo the odd prime 7 the
source returns the empty list instead of the singleton root [0], because the
Euler-criterion test n^((p-1)/2) ≡ 1 misclassifies 0; the p = 2 branch does
return a singleton. -/
theorem modSqrt_zero_odd_prime_empty :
    modSqrt 0 7 = [] ∧ modSqrt 0 2 = [0] ∧ modSqrt 7 7 = [] := by decide

/-- Claim C10: a negative scalar always yields the point at infinity — the
double-and-add loop body is guarded by k > 0, so it is never entered. -/
theorem scalarMultiply_neg_infinity (k : Int) (hk : k < 0) (P : Point) (c : CurveParams) :
    scalarMultiply k P c = POINT_AT_INFINITY := by
  unfold scalarMultiply
  by_cases hP : P.isInfinity
  · rw [if_pos (Or.inr hP)]
  · rw [if_neg (by simp [hP]; omega)]
    rw [scalarLoop]
    rw [if_neg (by omega)]

/-- Claim C10 witness: scalarMultiply (-1) G on the default curve is the
point at infinity. -/
theorem scalarMultiply_neg_infinity_witness :
    (-1 : Int) < 0 ∧
      scalarMultiply (-1) defaultCurve.G defaultCurve = POINT_AT_INFINITY :=
  ⟨by decide, scalarMultiply_neg_infinity (-1) (by decide) defaultCurve.G defaultCurve⟩

/-- Claim C7: verification rejects any signature whose r or s lies outside
(0, n), where n is the order verification uses, returning false (the
range check precedes all other computation, so no fault can be raised). -/
theorem verifySignature_out_of_range_false (message : List Int) (sig : Signature)
    (publicKey : Point) (c : CurveParams)
    (h : sig.r ≤ 0 ∨ sig.r ≥ orderFor c ∨ sig.s ≤ 0 ∨ sig.s ≥ orderFor c) :
    verifySignature message sig publicKey c = false := by
  unfold verifySignature
  rw [if_pos h]

/-- Claim C7 witness: a signature with r = 0 is rejected on the default
curve. -/
theorem verifySignature_out_of_range_false_witness :
    ((0 : Int) ≤ 0 ∨ (0 : Int) ≥ orderFor defaultCurve ∨ (1 : Int) ≤ 0 ∨
        (1 : Int) ≥ orderFor defaultCurve) ∧
      verifySignature [] { r := 0, s := 1 }
        { x := some 1, y := some 2, isInfinity := false } defaultCurve = false :=
  ⟨Or.inl (le_refl 0),
    verifySignature_out_of_range_false [] { r := 0, s := 1 }
      { x := some 1, y := some 2, isInfinity := false } defaultCurve (Or.inl (le_refl 0))⟩

/-- Claim C3 counterexample: on the default curve (odd prime p = 223) the
points (1, 2) and (224, 2) both pass isOnCurve, yet their sum (221, 221)
does not — the source compares raw coordinates, so a non-canonical
representative of the same residue class defeats the inverse test and the
chord slope divides by a multiple of p. -/
theorem addPoints_not_closed_noncanonical :
    isOnCurve { x := some 1, y := some 2, isInfinity := false } defaultCurve = true ∧
      isOnCurve { x := some 224, y := some 2, isInfinity := false } defaultCurve = true ∧
      addPoints { x := some 1, y := some 2, isInfinity := false }
          { x := some 224, y := some 2, isInfinity := false } defaultCurve =
        { x := some 221, y := some 221, isInfinity := false } ∧
      isOnCurve
          (addPoints { x := some 1, y := some 2, isInfinity := false }
            { x := some 224, y := some 2, isInfinity := false } defaultCurve) defaultCurve =
        false := by decide

/-- The curve y² = x³ over F₅ with the non-canonical base point (6, 1), a
representative of the order-5 point (1, 1). -/
def noncanonicalCurve : CurveParams :=
  { a := 0, b := 0, p := 5
    G := { x := some 6, y := some 1, isInfinity := false }
    n := 7, useFp := true }

/-- Claim C1 counterexample: on the prime-field curve y² = x³ over F₅ the
base point (6, 1) passes isOnCurve (it is the non-canonical representative
of (1, 1), a point of order 5), the scalars 5 and 2 both lie in [1, n-1]
for n = 7, yet the two ECDH shared-secret computations disagree: one side
returns infinity and the other the affine point (0, 3). -/
theorem ecdh_not_symmetric_noncanonical :
    isOnCurve noncanonicalCurve.G noncanonicalCurve = true ∧
      deriveSharedSecret 5 (computePublicKey 2 noncanonicalCurve) noncanonicalCurve =
        POINT_AT_INFINITY ∧
      deriveSharedSecret 2 (computePublicKey 5 noncanonicalCurve) noncanonicalCurve =
        { x := some 0, y := some 3, isInfinity := false } := by decide

/-- The curve y² = x³ + 1 over F₅ with the canonical base point (2, 2) of
composite order 6, and configured order 6. -/
def compositeOrderCurve : CurveParams :=
  { a := 0, b := 1, p := 5
    G := { x := some 2, y := some 2, isInfinity := false }
    n := 6, useFp := true }

/-- Claim C2 counterexample: on the curve y² = x³ + 1 over F₅ the canonical
base point (2, 2) has composite order 6 (matching the configured n = 6), the
key d = 1 and nonce k = 3 are in range, signing the empty message succeeds
with signature (4, 4), yet verification of that very signature returns
false — with a composite group order the nonce k = 3 has no inverse mod 6,
so the ECDSA algebra breaks down. -/
theorem ecdsa_roundtrip_fails_composite_order :
    isOnCurve compositeOrderCurve.G compositeOrderCurve = true ∧
      orderFor compositeOrderCurve = 6 ∧
      signMessage [] 1 compositeOrderCurve [3] = some { r := 4, s := 4 } ∧
      verifySignature [] { r := 4, s := 4 } (computePublicKey 1 compositeOrderCurve)
        compositeOrderCurve = false := by decide

/-- Claim C8 counterexample: with the default curve reconfigured to n = -2
(which scalarMultiply maps to infinity, so signing adopts it as the working
order), signing the empty message with d = 1 and nonce 1 returns the
signature (-1, -1), violating 0 < r. -/
theorem signMessage_negative_order_out_of_range :
    (scalarMultiply ({ defaultCurve with n := -2 } : CurveParams).n
        ({ defaultCurve with n := -2 } : CurveParams).G
        { defaultCurve with n := -2 }).isInfinity = true ∧
      signMessage [] 1 { defaultCurve with n := -2 } [1] = some { r := -1, s := -1 } ∧
      ¬(0 < (-1 : Int)) := by decide

/-- Claim C8 (amended): whenever the order n that signing adopts is
positive, every signature it returns satisfies 0 < r < n and 0 < s < n;
degenerate draws with r = 0 or s = 0 are retried, never returned. -/
theorem signMessage_signature_in_range (message : List Int) (privateKey : Int)
    (ks : List Int) (c : CurveParams) (sig : Signature) (hpos : 0 < orderFor c)
    (h : signMessage message privateKey c ks = some sig) :
    0 < sig.r ∧ sig.r < orderFor c ∧ 0 < sig.s ∧ sig.s < orderFor c := by
  induction ks generalizing c with
  | nil => simp [signMessage] at h
  | cons k ks ih =>
      have hupd : orderFor { c with n := orderFor c } = orderFor c := orderFor_update c
      simp only [signMessage] at h
      split_ifs at h with h1 h2 h3
      · have := ih { c with n := orderFor c } (by rw [hupd]; exact hpos) h
        rwa [hupd] at this
      · have := ih { c with n := orderFor c } (by rw [hupd]; exact hpos) h
        rwa [hupd] at this
      · have := ih { c with n := orderFor c } (by rw [hupd]; exact hpos) h
        rwa [hupd] at this
      · have hinj := Option.some.inj h
        have hr : sig.r = mod ((scalarMultiply k c.G c).x.getD 0) (orderFor c) := by
          rw [← hinj]
        have hs : sig.s =
            mod (modInverse k (orderFor c) *
              ((simpleHash message).tmod (orderFor c) +
                mod ((scalarMultiply k c.G c).x.getD 0) (orderFor c) * privateKey))
              (orderFor c) := by
          rw [← hinj]
        rw [hr, hs]
        have hr0 := mod_nonneg ((scalarMultiply k c.G c).x.getD 0) hpos
        have hr1 := mod_lt ((scalarMultiply k c.G c).x.getD 0) hpos
        have hs0 := mod_nonneg
          (modInverse k (orderFor c) *
            ((simpleHash message).tmod (orderFor c) +
              mod ((scalarMultiply k c.G c).x.getD 0) (orderFor c) * privateKey)) hpos
        have hs1 := mod_lt
          (modInverse k (orderFor c) *
            ((simpleHash message).tmod (orderFor c) +
              mod ((scalarMultiply k c.G c).x.getD 0) (orderFor c) * privateKey)) hpos
        refine ⟨by omega, hr1, by omega, hs1⟩

/-- The default curve coefficients with the on-curve canonical base point
(9, 197) of prime order 37, and configured order 37. -/
def order37Curve : CurveParams :=
  { a := -7, b := 10, p := 223
    G := { x := some 9, y := some 197, isInfinity := false }
    n := 37, useFp := true }

/-- Claim C8 witness: on a curve whose configured order 37 annihilates the
base point (9, 197), the signature produced with nonce 2 and key 5 lies in
range. -/
theorem signMessage_signature_in_range_witness :
    0 < orderFor order37Curve ∧
      signMessage [] 5 order37Curve [2] = some { r := 34, s := 11 } ∧
      0 < ({ r := 34, s := 11 } : Signature).r ∧
      ({ r := 34, s := 11 } : Signature).r < orderFor order37Curve := by
  have hsig : signMessage [] 5 order37Curve [2] = some { r := 34, s := 11 } := by decide
  have h := signMessage_signature_in_range [] 5 [2] order37Curve { r := 34, s := 11 }
    (by decide) hsig
  exact ⟨by decide, hsig, h.1, h.2.1⟩

/-! ### Correctness of the extended Euclidean algorithm -/

theorem gcd_sub_mul_right (r x q : Int) : Int.gcd r (x - q * r) = Int.gcd r x := by
  apply Nat.dvd_antisymm
  · rw [← Int.natCast_dvd_natCast]
    refine Int.dvd_gcd Int.gcd_dvd_left ?_
    have h1 : (Int.gcd r (x - q * r) : Int) ∣ x - q * r := Int.gcd_dvd_right
    have h2 : (Int.gcd r (x - q * r) : Int) ∣ r := Int.gcd_dvd_left
    have h3 := dvd_add h1 (Dvd.dvd.mul_left h2 q)
    simpa using h3
  · rw [← Int.natCast_dvd_natCast]
    refine Int.dvd_gcd Int.gcd_dvd_left ?_
    exact dvd_sub Int.gcd_dvd_right (Dvd.dvd.mul_left Int.gcd_dvd_left q)

theorem egcdGo_bezout (a m : Int) :
    ∀ (fuel : Nat) (old_r r old_s s : Int), 0 ≤ r → r.natAbs < fuel →
      (∃ t, old_s * a + t * m = old_r) → (∃ t, s * a + t * m = r) →
      (r = 0 → 0 ≤ old_r) → Int.gcd old_r r = Int.gcd a m →
      ∃ t, egcdGo fuel old_r r old_s s * a + t * m = (Int.gcd a m : Int) := by
  intro fuel
  induction fuel with
  | zero =>
      intro old_r r old_s s hr hfu
      exact absurd hfu (by omega)
  | succ fuel ih =>
      intro old_r r old_s s hr hfu hor hrr hpos hg
      by_cases h0 : r = 0
      · subst h0
        have hstep : egcdGo (fuel + 1) old_r 0 old_s s = old_s := by simp [egcdGo]
        rw [hstep]
        obtain ⟨t, ht⟩ := hor
        refine ⟨t, ?_⟩
        rw [ht]
        rw [Int.gcd_zero_right] at hg
        have h2 : (old_r.natAbs : Int) = old_r := Int.natAbs_of_nonneg (hpos rfl)
        omega
      · have hrpos : 0 < r := lt_of_le_of_ne hr (Ne.symm h0)
        simp only [egcdGo, if_neg h0]
        have hfm : old_r - old_r.fdiv r * r = old_r.fmod r := by
          rw [Int.fmod_def]; ring
        have hlt := Int.fmod_lt_of_pos old_r hrpos
        have hge := Int.fmod_nonneg' old_r hrpos
        obtain ⟨t1, ht1⟩ := hor
        obtain ⟨t2, ht2⟩ := hrr
        refine ih r (old_r - old_r.fdiv r * r) s (old_s - old_r.fdiv r * s)
          (by omega) (by omega) ⟨t2, ht2⟩
          ⟨t1 - old_r.fdiv r * t2, by linear_combination ht1 - old_r.fdiv r * ht2⟩
          (fun _ => le_of_lt hrpos) ?_
        rw [gcd_sub_mul_right, Int.gcd_comm]
        exact hg

theorem modInverse_bezout (a m : Int) (hm : 0 < m) (hg : Int.gcd a m = 1) :
    ∃ t, modInverse a m * a + t * m = 1 := by
  obtain ⟨t, ht⟩ := egcdGo_bezout a m (m.natAbs + 1) a m 1 0 (le_of_lt hm)
    (by omega) ⟨0, by ring⟩ ⟨1, by ring⟩ (fun h => absurd h (by omega)) rfl
  rw [hg] at ht
  push_cast at ht
  set E := egcdGo (m.natAbs + 1) a m 1 0 with hE
  have hmv : modInverse a m = E - m * (E / m) := by
    rw [modInverse, ← hE, mod_eq_emod E hm, Int.emod_def]
  refine ⟨t + E / m * a, ?_⟩
  rw [hmv]
  linear_combination ht

/-! ### The bridge between the integer code and ZMod p -/

theorem intCast_mod_eq (p : ℕ) [NeZero p] (a : Int) :
    ((mod a p : Int) : ZMod p) = (a : ZMod p) := by
  have hp : 0 < ((p : ℕ) : ℤ) := by
    exact_mod_cast Nat.pos_of_ne_zero (NeZero.ne p)
  rw [mod_eq_emod a hp, Int.emod_def, sub_eq_add_neg, ← neg_mul]
  push_cast [ZMod.natCast_self]
  ring

theorem mod_eq_val (p : ℕ) [NeZero p] (a : Int) :
    mod a p = (((a : ZMod p)).val : Int) := by
  have hp : 0 < ((p : ℕ) : ℤ) := by
    exact_mod_cast Nat.pos_of_ne_zero (NeZero.ne p)
  rw [mod_eq_emod a hp, ZMod.val_intCast]

theorem val_intCast_of_range (p : ℕ) [NeZero p] {a : Int} (h0 : 0 ≤ a) (h1 : a < (p : Int)) :
    (((a : ZMod p)).val : Int) = a := by
  rw [← mod_eq_val, mod_of_range h0 h1]

theorem natCast_val_self (p : ℕ) [NeZero p] (z : ZMod p) : (((z.val : ℕ)) : ZMod p) = z := by
  rw [ZMod.natCast_val, ZMod.cast_id]

theorem intCast_val_self (p : ℕ) [NeZero p] (z : ZMod p) :
    (((z.val : Int) : ZMod p)) = z := by
  have h : (((z.val : ℕ) : ℤ) : ZMod p) = ((z.val : ℕ) : ZMod p) := by push_cast; rfl
  rw [h, natCast_val_self]

theorem val_inj_int (p : ℕ) [NeZero p] {z w : ZMod p} :
    (z.val : Int) = (w.val : Int) ↔ z = w := by
  constructor
  · intro h
    have : z.val = w.val := by exact_mod_cast h
    exact ZMod.val_injective p this
  · intro h; rw [h]

theorem gcd_one_of_prime_not_dvd {p : ℕ} (hp : p.Prime) {a : ℤ} (h : ¬ ((p : ℤ) ∣ a)) :
    Int.gcd a p = 1 := by
  have h1 : ¬ p ∣ a.natAbs := by
    intro hd
    exact h (Int.natAbs_dvd_natAbs.mp (by simpa using hd))
  have h2 : Nat.Coprime p a.natAbs := (Nat.Prime.coprime_iff_not_dvd hp).mpr h1
  have h3 : Nat.gcd a.natAbs p = 1 := Nat.Coprime.gcd_eq_one (Nat.Coprime.symm h2)
  simpa [Int.gcd] using h3

theorem modInverse_zmod (p : ℕ) [NeZero p] (hp : p.Prime) (a : Int)
    (ha : ((a : ZMod p)) ≠ 0) :
    ((modInverse a p : Int) : ZMod p) * (a : ZMod p) = 1 := by
  have hm : 0 < ((p : ℕ) : ℤ) := by
    exact_mod_cast Nat.pos_of_ne_zero (NeZero.ne p)
  have hdvd : ¬ ((p : ℤ) ∣ a) := by
    intro hd
    exact ha ((ZMod.intCast_zmod_eq_zero_iff_dvd a p).mpr hd)
  obtain ⟨t, ht⟩ := modInverse_bezout a p hm (gcd_one_of_prime_not_dvd hp hdvd)
  have hc : ((modInverse a p * a + t * p : ℤ) : ZMod p) = ((1 : ℤ) : ZMod p) := by rw [ht]
  push_cast [ZMod.natCast_self] at hc
  simpa using hc

/-! ### The code's finite-field branch versus the Weierstrass curve over ZMod p -/

/-- The short Weierstrass curve over ZMod p with the coefficients of the
embedded curve parameters. -/
def curveW (c : CurveParams) (p : ℕ) : WeierstrassCurve.Affine (ZMod p) :=
  { a₁ := 0, a₂ := 0, a₃ := 0, a₄ := ((c.a : ZMod p)), a₆ := ((c.b : ZMod p)) }

/-- The canonical code-level point with the coordinates of a pair of
residues. -/
def mkPt {p : ℕ} (x y : ZMod p) : Point :=
  { x := some ((x.val : Int)), y := some ((y.val : Int)), isInfinity := false }

theorem mkPt_of_canonical (p : ℕ) [NeZero p] {gx gy : Int}
    (hx0 : 0 ≤ gx) (hx1 : gx < (p : Int)) (hy0 : 0 ≤ gy) (hy1 : gy < (p : Int)) :
    mkPt ((gx : ZMod p)) ((gy : ZMod p)) =
      { x := some gx, y := some gy, isInfinity := false } := by
  unfold mkPt
  rw [val_intCast_of_range p hx0 hx1, val_intCast_of_range p hy0 hy1]

theorem mod_eq_mod_iff (p : ℕ) [NeZero p] (A B : Int) :
    mod A p = mod B p ↔ ((A : ZMod p)) = (B : ZMod p) := by
  rw [mod_eq_val, mod_eq_val]
  exact val_inj_int p

/-- The integer value the code computes as the chord slope of two affine
points (the addition branch of `addPoints`). -/
def chordSlope (c : CurveParams) (x1v y1v x2v y2v : Int) : Int :=
  mod (mod (y2v - y1v) c.p * modInverse (mod (x2v - x1v) c.p) c.p) c.p

/-- The integer value the code computes as the tangent slope of an affine
point (the doubling branch of `addPoints`). -/
def tangentSlope (c : CurveParams) (xv yv : Int) : Int :=
  mod (mod (3 * xv * xv + c.a) c.p * modInverse (mod (2 * yv) c.p) c.p) c.p

/-- The affine output point the code produces from a slope value `S` in the
non-degenerate branches of `addPoints`. -/
def addOut (c : CurveParams) (x1v y1v x2v S : Int) : Point :=
  { x := some (mod (S * S - x1v - x2v) c.p)
    y := some (mod (S * (x1v - mod (S * S - x1v - x2v) c.p) - y1v) c.p)
    isInfinity := false }

section WBridge

variable {p : ℕ} [Fact (Nat.Prime p)] {c : CurveParams}

theorem two_ne_zero_zmod (hodd : p ≠ 2) : ((2 : ZMod p)) ≠ 0 := by
  intro h
  have h2 : ((2 : ℕ) : ZMod p) = 0 := by exact_mod_cast h
  have hdvd : p ∣ 2 := (ZMod.natCast_zmod_eq_zero_iff_dvd 2 p).mp h2
  have hp : Nat.Prime p := Fact.out
  exact hodd ((Nat.prime_dvd_prime_iff_eq hp Nat.prime_two).mp hdvd)

theorem negY_curveW (x y : ZMod p) : (curveW c p).negY x y = -y := by
  simp [curveW, WeierstrassCurve.Affine.negY]

theorem neg_eq_self_iff_zero (hodd : p ≠ 2) (y : ZMod p) : y = -y ↔ y = 0 := by
  constructor
  · intro h
    have h2 : (2 : ZMod p) * y = 0 := by linear_combination h
    rcases mul_eq_zero.mp h2 with h' | h'
    · exact absurd h' (two_ne_zero_zmod hodd)
    · exact h'
  · intro h; rw [h]; ring

/-- Cast of the code's chord slope: for canonical representatives with
distinct x-residues the code computes the Weierstrass chord slope. -/
theorem slope_cast_of_X_ne (hcp : c.p = (p : Int)) {x1 x2 : ZMod p} (y1 y2 : ZMod p)
    (hx : x1 ≠ x2) :
    ((chordSlope c (x1.val : Int) (y1.val : Int) (x2.val : Int) (y2.val : Int) : Int) :
        ZMod p) =
      (curveW c p).slope x1 x2 y1 y2 := by
  have hp : Nat.Prime p := Fact.out
  rw [chordSlope, hcp]
  rw [intCast_mod_eq]
  push_cast
  rw [intCast_mod_eq]
  have hnum : ((((y2.val : Int) - (y1.val : Int)) : Int) : ZMod p) = y2 - y1 := by
    push_cast
    simp only [natCast_val_self]
  have hden0 : ((((x2.val : Int) - (x1.val : Int)) : Int) : ZMod p) = x2 - x1 := by
    push_cast
    simp only [natCast_val_self]
  have hdenne : ((mod ((x2.val : Int) - (x1.val : Int)) (p : Int) : Int) : ZMod p) ≠ 0 := by
    rw [intCast_mod_eq, hden0]
    exact sub_ne_zero_of_ne (Ne.symm hx)
  have hinv := modInverse_zmod p hp (mod ((x2.val : Int) - (x1.val : Int)) (p : Int)) hdenne
  have hinv' : ((modInverse (mod ((x2.val : Int) - (x1.val : Int)) (p : Int)) (p : Int) :
      Int) : ZMod p) = (x2 - x1)⁻¹ := by
    apply eq_inv_of_mul_eq_one_left
    rw [intCast_mod_eq, hden0] at hinv
    exact hinv
  rw [hnum, hinv']
  rw [WeierstrassCurve.Affine.slope_of_X_ne hx]
  rw [div_eq_mul_inv, show y1 - y2 = -(y2 - y1) by ring, show x1 - x2 = -(x2 - x1) by ring,
    inv_neg, neg_mul_neg]

/-- Cast of the code's tangent slope: for a canonical representative with
nonzero y-residue the code computes the Weierstrass tangent slope. -/
theorem slope_cast_of_eq (hcp : c.p = (p : Int)) (hodd : p ≠ 2) {x y : ZMod p}
    (hy : y ≠ 0) :
    ((tangentSlope c (x.val : Int) (y.val : Int) : Int) : ZMod p) =
      (curveW c p).slope x x y y := by
  have hp : Nat.Prime p := Fact.out
  rw [tangentSlope, hcp]
  rw [intCast_mod_eq]
  push_cast
  rw [intCast_mod_eq]
  have hnum : (((3 * (x.val : Int) * (x.val : Int) + c.a) : Int) : ZMod p) =
      3 * x * x + ((c.a : ZMod p)) := by
    push_cast
    simp only [natCast_val_self]
  have hden0 : (((2 * (y.val : Int)) : Int) : ZMod p) = 2 * y := by
    push_cast
    simp only [natCast_val_self]
  have hdenne : ((mod (2 * (y.val : Int)) (p : Int) : Int) : ZMod p) ≠ 0 := by
    rw [intCast_mod_eq, hden0]
    exact mul_ne_zero (two_ne_zero_zmod hodd) hy
  have hinv := modInverse_zmod p hp (mod (2 * (y.val : Int)) (p : Int)) hdenne
  have hinv' : ((modInverse (mod (2 * (y.val : Int)) (p : Int)) (p : Int) : Int) : ZMod p) =
      (2 * y)⁻¹ := by
    apply eq_inv_of_mul_eq_one_left
    rw [intCast_mod_eq, hden0] at hinv
    exact hinv
  rw [hnum, hinv']
  have hyneg : y ≠ (curveW c p).negY x y := by
    rw [negY_curveW]
    intro h
    exact hy ((neg_eq_self_iff_zero hodd y).mp h)
  rw [WeierstrassCurve.Affine.slope_of_Y_ne rfl hyneg]
  rw [negY_curveW]
  simp only [curveW]
  rw [div_eq_mul_inv]
  congr 1
  · ring
  · congr 1
    ring

theorem addPoints_inf_left (Q : Point) : addPoints POINT_AT_INFINITY Q c = Q := by
  simp [addPoints, POINT_AT_INFINITY]

theorem addPoints_inf_right {P : Point} (h : P.isInfinity = false) :
    addPoints P POINT_AT_INFINITY c = P := by
  simp [addPoints, POINT_AT_INFINITY, h]

theorem addPoints_affine_add (hfp : c.useFp = true) {x1v y1v x2v y2v : Int}
    (hne : x1v ≠ x2v) :
    addPoints { x := some x1v, y := some y1v, isInfinity := false }
        { x := some x2v, y := some y2v, isInfinity := false } c =
      addOut c x1v y1v x2v (chordSlope c x1v y1v x2v y2v) := by
  simp [addPoints, addOut, chordSlope, hfp, hne]

theorem addPoints_affine_dbl (hfp : c.useFp = true) {xv yv : Int} (hy : yv ≠ 0) :
    addPoints { x := some xv, y := some yv, isInfinity := false }
        { x := some xv, y := some yv, isInfinity := false } c =
      addOut c xv yv xv (tangentSlope c xv yv) := by
  simp [addPoints, addOut, tangentSlope, hfp, hy]

theorem addPoints_affine_dbl_zero {xv : Int} :
    addPoints { x := some xv, y := some 0, isInfinity := false }
        { x := some xv, y := some 0, isInfinity := false } c = POINT_AT_INFINITY := by
  simp [addPoints]

theorem addPoints_affine_inv (_hfp : c.useFp = true) {xv y1v y2v : Int} (hy : y1v ≠ y2v) :
    addPoints { x := some xv, y := some y1v, isInfinity := false }
        { x := some xv, y := some y2v, isInfinity := false } c = POINT_AT_INFINITY := by
  simp [addPoints, hy]

theorem addOut_eq_mk (hcp : c.p = (p : Int)) (x1 y1 x2 : ZMod p) {S : Int} {L : ZMod p}
    (hS : ((S : Int) : ZMod p) = L) :
    addOut c (x1.val : Int) (y1.val : Int) (x2.val : Int) S =
      mkPt ((curveW c p).addX x1 x2 L) ((curveW c p).addY x1 x2 y1 L) := by
  have hA : ((S * S - (x1.val : Int) - (x2.val : Int) : Int) : ZMod p) =
      (curveW c p).addX x1 x2 L := by
    push_cast [hS]
    simp only [natCast_val_self]
    simp [curveW, WeierstrassCurve.Affine.addX]
    ring
  have hXv : mod (S * S - (x1.val : Int) - (x2.val : Int)) c.p =
      (((curveW c p).addX x1 x2 L).val : Int) := by
    rw [hcp, mod_eq_val p, hA]
  have hB : ((S * ((x1.val : Int) - (((curveW c p).addX x1 x2 L).val : Int)) -
      (y1.val : Int) : Int) : ZMod p) = (curveW c p).addY x1 x2 y1 L := by
    push_cast [hS]
    simp only [natCast_val_self]
    simp [curveW, WeierstrassCurve.Affine.addY, WeierstrassCurve.Affine.negAddY,
      WeierstrassCurve.Affine.negY]
    ring
  have hYv : mod (S * ((x1.val : Int) -
        mod (S * S - (x1.val : Int) - (x2.val : Int)) c.p) - (y1.val : Int)) c.p =
      (((curveW c p).addY x1 x2 y1 L).val : Int) := by
    rw [hXv, hcp, mod_eq_val p, hB]
  unfold addOut mkPt
  rw [hYv, hXv]

theorem val_ne_zero_int {x : ZMod p} (h : x ≠ 0) : ((x.val : Int)) ≠ 0 := by
  intro h0
  apply h
  apply (val_inj_int p).mp
  rw [h0]
  have : ((0 : ZMod p)).val = 0 := ZMod.val_zero
  rw [this]
  rfl

theorem mkPt_zero_y (x : ZMod p) : mkPt x (0 : ZMod p) =
    { x := some ((x.val : Int)), y := some 0, isInfinity := false } := by
  unfold mkPt
  have : ((0 : ZMod p)).val = 0 := ZMod.val_zero
  rw [this]
  rfl

theorem addPoints_mk_add (hcp : c.p = (p : Int)) (hfp : c.useFp = true)
    {x1 x2 : ZMod p} (y1 y2 : ZMod p) (hx : x1 ≠ x2) :
    addPoints (mkPt x1 y1) (mkPt x2 y2) c =
      mkPt ((curveW c p).addX x1 x2 ((curveW c p).slope x1 x2 y1 y2))
        ((curveW c p).addY x1 x2 y1 ((curveW c p).slope x1 x2 y1 y2)) := by
  have hvne : ((x1.val : Int)) ≠ ((x2.val : Int)) := fun h => hx ((val_inj_int p).mp h)
  rw [show mkPt x1 y1 =
      { x := some ((x1.val : Int)), y := some ((y1.val : Int)), isInfinity := false } from rfl,
    show mkPt x2 y2 =
      { x := some ((x2.val : Int)), y := some ((y2.val : Int)), isInfinity := false } from rfl]
  rw [addPoints_affine_add hfp hvne]
  exact addOut_eq_mk hcp x1 y1 x2 (slope_cast_of_X_ne hcp y1 y2 hx)

theorem addPoints_mk_dbl (hcp : c.p = (p : Int)) (hfp : c.useFp = true) (hodd : p ≠ 2)
    {x y : ZMod p} (hy : y ≠ 0) :
    addPoints (mkPt x y) (mkPt x y) c =
      mkPt ((curveW c p).addX x x ((curveW c p).slope x x y y))
        ((curveW c p).addY x x y ((curveW c p).slope x x y y)) := by
  have hvne := val_ne_zero_int hy
  rw [show mkPt x y =
      { x := some ((x.val : Int)), y := some ((y.val : Int)), isInfinity := false } from rfl]
  rw [addPoints_affine_dbl hfp hvne]
  exact addOut_eq_mk hcp x y x (slope_cast_of_eq hcp hodd hy)

theorem addPoints_mk_dbl_zero (x : ZMod p) :
    addPoints (mkPt x 0) (mkPt x 0) c = POINT_AT_INFINITY := by
  rw [mkPt_zero_y]
  exact addPoints_affine_dbl_zero (c := c)

theorem addPoints_mk_inv (hfp : c.useFp = true) {x1 x2 y1 y2 : ZMod p}
    (hx : x1 = x2) (hy : y1 ≠ y2) :
    addPoints (mkPt x1 y1) (mkPt x2 y2) c = POINT_AT_INFINITY := by
  have hvne : ((y1.val : Int)) ≠ ((y2.val : Int)) := fun h => hy ((val_inj_int p).mp h)
  rw [show mkPt x1 y1 =
      { x := some ((x1.val : Int)), y := some ((y1.val : Int)), isInfinity := false } from rfl,
    show mkPt x2 y2 =
      { x := some ((x2.val : Int)), y := some ((y2.val : Int)), isInfinity := false } from rfl]
  rw [hx]
  exact addPoints_affine_inv hfp hvne

theorem equation_mk_iff (hcp : c.p = (p : Int)) (hfp : c.useFp = true) (x y : ZMod p) :
    isOnCurve (mkPt x y) c = true ↔ (curveW c p).Equation x y := by
  have hmk : isOnCurve (mkPt x y) c =
      (mod ((y.val : Int) * (y.val : Int)) c.p ==
        mod ((x.val : Int) * (x.val : Int) * (x.val : Int) + c.a * (x.val : Int) + c.b) c.p) := by
    simp [isOnCurve, mkPt, hfp]
  rw [hmk, beq_iff_eq, hcp, mod_eq_mod_iff]
  rw [WeierstrassCurve.Affine.equation_iff]
  constructor
  · intro h
    push_cast at h
    simp only [natCast_val_self] at h
    simp [curveW]
    linear_combination h
  · intro h
    simp [curveW] at h
    push_cast
    simp only [natCast_val_self]
    linear_combination h

theorem y_eq_or_neg_of_equation {x y1 y2 : ZMod p}
    (h1 : (curveW c p).Equation x y1) (h2 : (curveW c p).Equation x y2) :
    y1 = y2 ∨ y1 = -y2 := by
  rw [WeierstrassCurve.Affine.equation_iff] at h1 h2
  simp [curveW] at h1 h2
  have hsq : y1 ^ 2 = y2 ^ 2 := by rw [h1, h2]
  have h3 : (y1 - y2) * (y1 + y2) = 0 := by linear_combination hsq
  rcases mul_eq_zero.mp h3 with h | h
  · exact Or.inl (sub_eq_zero.mp h)
  · exact Or.inr (by linear_combination h)

/-- The code-level image of a nonsingular rational point: infinity for the
group identity, and the canonically represented affine point otherwise. -/
def toCode {p : ℕ} {W : WeierstrassCurve.Affine (ZMod p)} : W.Point → Point
  | WeierstrassCurve.Affine.Point.zero => POINT_AT_INFINITY
  | @WeierstrassCurve.Affine.Point.some _ _ _ x y _ => mkPt x y

omit [Fact (Nat.Prime p)] in
theorem toCode_zero {W : WeierstrassCurve.Affine (ZMod p)} :
    toCode (0 : W.Point) = POINT_AT_INFINITY := rfl

omit [Fact (Nat.Prime p)] in
theorem toCode_isInf_iff {W : WeierstrassCurve.Affine (ZMod p)} (P : W.Point) :
    (toCode P).isInfinity = true ↔ P = 0 := by
  rcases P with _ | @⟨x, y, h⟩
  · exact ⟨fun _ => rfl, fun _ => rfl⟩
  · constructor
    · intro hc
      exact absurd hc (by simp [toCode, mkPt])
    · intro hc
      exact absurd hc (WeierstrassCurve.Affine.Point.some_ne_zero h)

theorem nonsingular_of_equation_y_ne (hodd : p ≠ 2) {x y : ZMod p}
    (he : (curveW c p).Equation x y) (hy : y ≠ 0) : (curveW c p).Nonsingular x y := by
  rw [WeierstrassCurve.Affine.nonsingular_iff']
  refine ⟨he, Or.inr ?_⟩
  simp only [curveW]
  simpa using mul_ne_zero (two_ne_zero_zmod hodd) hy

theorem toCode_add (hcp : c.p = (p : Int)) (hfp : c.useFp = true) (hodd : p ≠ 2)
    (P Q : (curveW c p).Point) :
    addPoints (toCode P) (toCode Q) c = toCode (P + Q) := by
  rcases P with _ | @⟨x1, y1, h1⟩
  · rw [show toCode (WeierstrassCurve.Affine.Point.zero : (curveW c p).Point) =
        POINT_AT_INFINITY from rfl]
    rw [addPoints_inf_left, WeierstrassCurve.Affine.Point.zero_def, zero_add]
  · rcases Q with _ | @⟨x2, y2, h2⟩
    · rw [show toCode (WeierstrassCurve.Affine.Point.zero : (curveW c p).Point) =
          POINT_AT_INFINITY from rfl]
      rw [addPoints_inf_right (c := c) rfl, WeierstrassCurve.Affine.Point.zero_def, add_zero]
    · by_cases hx : x1 = x2
      · by_cases hy : y1 = (curveW c p).negY x2 y2
        · rw [WeierstrassCurve.Affine.Point.add_of_Y_eq hx hy, toCode_zero]
          rw [negY_curveW] at hy
          by_cases hyy : y1 = y2
          · have hy0 : y1 = 0 := by
              rw [← hyy] at hy
              exact (neg_eq_self_iff_zero hodd y1).mp hy
            subst hx
            subst hyy
            subst hy0
            exact addPoints_mk_dbl_zero x1
          · exact addPoints_mk_inv hfp hx hyy
        · have hyy : y1 = y2 := by
            rcases y_eq_or_neg_of_equation (c := c) (hx ▸ h1.1) h2.1 with h | h
            · exact h
            · rw [negY_curveW] at hy
              exact absurd h hy
          have hy0 : y1 ≠ 0 := by
            intro h0
            apply hy
            rw [negY_curveW, ← hyy, h0, neg_zero]
          rw [WeierstrassCurve.Affine.Point.add_of_imp (fun _ => hy)]
          subst hx
          subst hyy
          exact addPoints_mk_dbl hcp hfp hodd hy0
      · rw [WeierstrassCurve.Affine.Point.add_of_imp (fun h => absurd h hx)]
        exact addPoints_mk_add hcp hfp y1 y2 hx

theorem scalarLoop_toCode (hcp : c.p = (p : Int)) (hfp : c.useFp = true) (hodd : p ≠ 2) :
    ∀ (fuel : Nat) (k : Int), 0 ≤ k → k.natAbs < fuel → ∀ (R A : (curveW c p).Point),
      scalarLoop c fuel (toCode R) (toCode A) k = toCode (R + k.toNat • A) := by
  intro fuel
  induction fuel with
  | zero =>
      intro k hk hfu
      exact absurd hfu (by omega)
  | succ fuel ih =>
      intro k hk hfu R A
      by_cases hkpos : k > 0
      · have hdiv : k.fdiv 2 = k / 2 := Int.fdiv_eq_ediv k (by norm_num)
        have hmod : k.tmod 2 = k % 2 := Int.tmod_eq_emod hk (by norm_num)
        have hfu2 : (k.fdiv 2).natAbs < fuel := by rw [hdiv]; omega
        have hk2 : 0 ≤ k.fdiv 2 := by rw [hdiv]; omega
        rw [scalarLoop, if_pos hkpos]
        by_cases hpar : k.tmod 2 = 1
        · rw [if_pos hpar]
          rw [toCode_add hcp hfp hodd R A, toCode_add hcp hfp hodd A A]
          rw [ih (k.fdiv 2) hk2 hfu2 (R + A) (A + A)]
          have hksplit : k.toNat = 2 * (k.fdiv 2).toNat + 1 := by
            rw [hdiv]
            rw [hmod] at hpar
            omega
          rw [hksplit]
          congr 1
          have h1 : (2 * (k.fdiv 2).toNat + 1) • A = (k.fdiv 2).toNat • A +
              (k.fdiv 2).toNat • A + A := by
            rw [add_nsmul, one_nsmul, two_mul, add_nsmul]
          rw [nsmul_add, h1]
          abel
        · rw [if_neg hpar]
          rw [toCode_add hcp hfp hodd A A]
          rw [ih (k.fdiv 2) hk2 hfu2 R (A + A)]
          have hksplit : k.toNat = 2 * (k.fdiv 2).toNat := by
            rw [hdiv]
            rw [hmod] at hpar
            omega
          rw [hksplit]
          congr 1
          have h1 : (2 * (k.fdiv 2).toNat) • A = (k.fdiv 2).toNat • A +
              (k.fdiv 2).toNat • A := by
            rw [two_mul, add_nsmul]
          rw [nsmul_add, h1]
      · have hk0 : k = 0 := by omega
        subst hk0
        rw [scalarLoop, if_neg (by omega)]
        rw [show (0 : Int).toNat = 0 from rfl, zero_nsmul, add_zero]

theorem scalarMultiply_toCode (hcp : c.p = (p : Int)) (hfp : c.useFp = true) (hodd : p ≠ 2)
    (k : Int) (hk : 0 ≤ k) (P : (curveW c p).Point) :
    scalarMultiply k (toCode P) c = toCode (k.toNat • P) := by
  by_cases hk0 : k = 0
  · subst hk0
    rw [show (0 : Int).toNat = 0 from rfl, zero_nsmul, toCode_zero]
    rw [scalarMultiply, if_pos (Or.inl rfl)]
  · rcases P with _ | @⟨x, y, h⟩
    · rw [show toCode (WeierstrassCurve.Affine.Point.zero : (curveW c p).Point) =
          POINT_AT_INFINITY from rfl]
      rw [WeierstrassCurve.Affine.Point.zero_def, nsmul_zero, toCode_zero]
      rw [scalarMultiply,
        if_pos (Or.inr (show POINT_AT_INFINITY.isInfinity = true from rfl))]
    · rw [scalarMultiply, if_neg (by simp [toCode, mkPt, hk0])]
      have := scalarLoop_toCode hcp hfp hodd (k.natAbs + 1) k hk (by omega)
        (0 : (curveW c p).Point) (WeierstrassCurve.Affine.Point.some h)
      rw [toCode_zero] at this
      rw [this, zero_add]

theorem isOnCurve_inf (c : CurveParams) : isOnCurve POINT_AT_INFINITY c = true := by
  simp [isOnCurve, POINT_AT_INFINITY]

theorem addPoints_isInf_left {P : Point} (Q : Point) (c : CurveParams)
    (h : P.isInfinity = true) : addPoints P Q c = Q := by
  simp [addPoints, h]

theorem addPoints_isInf_right {P Q : Point} (c : CurveParams)
    (hP : P.isInfinity = false) (hQ : Q.isInfinity = true) : addPoints P Q c = P := by
  simp [addPoints, hP, hQ]

/-- Claim C3 (amended): on a finite-field curve with odd prime modulus, the
sum of two points that pass isOnCurve and are canonically represented
(affine coordinates reduced into [0, p), or marked infinite) again passes
isOnCurve. -/
theorem addPoints_closed_canonical (c : CurveParams) (p : ℕ) (hp : Nat.Prime p)
    (hp2 : p ≠ 2) (hcp : c.p = (p : Int)) (hfp : c.useFp = true)
    (P Q : Point) (hPon : isOnCurve P c = true) (hQon : isOnCurve Q c = true)
    (hPc : canonicalPoint P c) (hQc : canonicalPoint Q c) :
    isOnCurve (addPoints P Q c) c = true := by
  haveI : Fact (Nat.Prime p) := ⟨hp⟩
  rcases hPc with hPinf | ⟨gx1, gy1, rfl, hx10, hx11, hy10, hy11⟩
  · rw [addPoints_isInf_left Q c hPinf]
    exact hQon
  · rcases hQc with hQinf | ⟨gx2, gy2, rfl, hx20, hx21, hy20, hy21⟩
    · rw [addPoints_isInf_right c rfl hQinf]
      exact hPon
    · rw [hcp] at hx11 hy11 hx21 hy21
      have hP : ({ x := some gx1, y := some gy1, isInfinity := false } : Point) =
          mkPt ((gx1 : ZMod p)) ((gy1 : ZMod p)) :=
        (mkPt_of_canonical p hx10 hx11 hy10 hy11).symm
      have hQ : ({ x := some gx2, y := some gy2, isInfinity := false } : Point) =
          mkPt ((gx2 : ZMod p)) ((gy2 : ZMod p)) :=
        (mkPt_of_canonical p hx20 hx21 hy20 hy21).symm
      rw [hP] at hPon ⊢
      rw [hQ] at hQon ⊢
      have e1 := (equation_mk_iff hcp hfp _ _).mp hPon
      have e2 := (equation_mk_iff hcp hfp _ _).mp hQon
      by_cases hx : ((gx1 : ZMod p)) = ((gx2 : ZMod p))
      · by_cases hyy : ((gy1 : ZMod p)) = ((gy2 : ZMod p))
        · rw [← hx, ← hyy] at *
          by_cases hy0 : ((gy1 : ZMod p)) = 0
          · rw [hy0] at *
            rw [addPoints_mk_dbl_zero]
            exact isOnCurve_inf c
          · rw [addPoints_mk_dbl hcp hfp hp2 hy0]
            rw [equation_mk_iff hcp hfp]
            refine WeierstrassCurve.Affine.equation_add e1 e1 (fun _ hneg => ?_)
            rw [negY_curveW] at hneg
            exact hy0 ((neg_eq_self_iff_zero hp2 _).mp hneg)
        · rw [addPoints_mk_inv hfp hx hyy]
          exact isOnCurve_inf c
      · rw [addPoints_mk_add hcp hfp _ _ hx]
        rw [equation_mk_iff hcp hfp]
        exact WeierstrassCurve.Affine.equation_add e1 e2 (fun h => absurd h hx)

/-- Claim C3 witness: on the default curve the canonical on-curve points
(1, 2) and (2, 2) add to a point that is again on the curve. -/
theorem addPoints_closed_canonical_witness :
    isOnCurve { x := some 1, y := some 2, isInfinity := false } defaultCurve = true ∧
      isOnCurve
        (addPoints { x := some 1, y := some 2, isInfinity := false }
          { x := some 2, y := some 2, isInfinity := false } defaultCurve) defaultCurve =
        true :=
  ⟨by decide,
    addPoints_closed_canonical defaultCurve 223 (by norm_num) (by norm_num) rfl rfl
      { x := some 1, y := some 2, isInfinity := false }
      { x := some 2, y := some 2, isInfinity := false }
      (by decide) (by decide)
      (Or.inr ⟨1, 2, rfl, by decide, by decide, by decide, by decide⟩)
      (Or.inr ⟨2, 2, rfl, by decide, by decide, by decide, by decide⟩)⟩

end WBridge

/-! ### Generic facts about the double-and-add loop -/

theorem scalarMultiply_inf (k : Int) (c : CurveParams) :
    scalarMultiply k POINT_AT_INFINITY c = POINT_AT_INFINITY := by
  rw [scalarMultiply, if_pos (Or.inr (show POINT_AT_INFINITY.isInfinity = true from rfl))]

theorem scalarLoop_zeroK (c : CurveParams) :
    ∀ (fuel : Nat) (R A : Point), scalarLoop c fuel R A 0 = R := by
  intro fuel R A
  cases fuel with
  | zero => rfl
  | succ fuel => rw [scalarLoop, if_neg (by omega)]

theorem scalarMultiply_one (c : CurveParams) {P : Point}
    (h : P = POINT_AT_INFINITY ∨ P.isInfinity = false) :
    scalarMultiply 1 P c = P := by
  rcases h with rfl | haff
  · exact scalarMultiply_inf 1 c
  · rw [scalarMultiply, if_neg (by simp [haff])]
    show scalarLoop c 2 POINT_AT_INFINITY P 1 = P
    rw [scalarLoop, if_pos (by omega)]
    rw [if_pos (by decide)]
    rw [addPoints_inf_left]
    rw [show (1 : Int).fdiv 2 = 0 from rfl]
    exact scalarLoop_zeroK c _ P _

theorem scalarLoop_inf_addend (c : CurveParams) :
    ∀ (fuel : Nat) (R : Point) (k : Int),
      R = POINT_AT_INFINITY ∨ R.isInfinity = false →
      scalarLoop c fuel R POINT_AT_INFINITY k = R := by
  intro fuel
  induction fuel with
  | zero => intro R k _; rfl
  | succ fuel ih =>
      intro R k hR
      rw [scalarLoop]
      by_cases hk : k > 0
      · rw [if_pos hk]
        have hadd : addPoints R POINT_AT_INFINITY c = R := by
          rcases hR with rfl | hR
          · exact addPoints_isInf_left _ c rfl
          · exact addPoints_isInf_right c hR rfl
        have haddinf : addPoints POINT_AT_INFINITY POINT_AT_INFINITY c = POINT_AT_INFINITY :=
          addPoints_isInf_left _ c rfl
        by_cases hpar : k.tmod 2 = 1
        · rw [if_pos hpar, hadd, haddinf]
          exact ih R _ hR
        · rw [if_neg hpar, haddinf]
          exact ih R _ hR
      · rw [if_neg hk]

/-- On an affine point with y-coordinate literally 0, doubling collapses to
infinity, so scalar multiplication only depends on the parity of the
scalar. -/
theorem scalarMultiply_yzero {c : CurveParams} (xv : Int) {d : Int} (hd : 1 ≤ d) :
    scalarMultiply d { x := some xv, y := some 0, isInfinity := false } c =
      if d.tmod 2 = 1 then { x := some xv, y := some 0, isInfinity := false }
      else POINT_AT_INFINITY := by
  rw [scalarMultiply, if_neg (by simp; omega)]
  rw [scalarLoop, if_pos (by omega)]
  rw [addPoints_affine_dbl_zero (c := c)]
  rw [addPoints_inf_left]
  by_cases hpar : d.tmod 2 = 1
  · rw [if_pos hpar]
    exact scalarLoop_inf_addend c _ _ _ (Or.inr rfl)
  · rw [if_neg hpar]
    exact scalarLoop_inf_addend c _ _ _ (Or.inl rfl)

/-- The doubled point `2 * P` as the code computes it. -/
def Zpt (c : CurveParams) (P : Point) : Point := addPoints P P c

/-- The tripled point `P + 2 * P` as the code computes it. -/
def Wpt (c : CurveParams) (P : Point) : Point := addPoints P (addPoints P P c) c

theorem scalarLoop_stable (c : CurveParams) (A : Point)
    (hAA : addPoints A A c = A) :
    ∀ (fuel : Nat) (R : Point) (k : Int), 1 ≤ k → k.natAbs < fuel →
      addPoints (addPoints R A c) A c = addPoints R A c →
      scalarLoop c fuel R A k = addPoints R A c := by
  intro fuel
  induction fuel with
  | zero =>
      intro R k hk hfu
      exact absurd hfu (by omega)
  | succ fuel ih =>
      intro R k hk hfu hstab
      have hdiv : k.fdiv 2 = k / 2 := Int.fdiv_eq_ediv k (by norm_num)
      have hmod : k.tmod 2 = k % 2 := Int.tmod_eq_emod (by omega) (by norm_num)
      rw [scalarLoop, if_pos (by omega), hAA]
      by_cases hpar : k.tmod 2 = 1
      · rw [if_pos hpar]
        by_cases hk1 : 1 ≤ k.fdiv 2
        · rw [ih (addPoints R A c) (k.fdiv 2) hk1 (by rw [hdiv]; omega)
            (by simp only [hstab])]
          exact hstab
        · have hk0 : k.fdiv 2 = 0 := by rw [hdiv] at hk1 ⊢; omega
          rw [hk0]
          exact scalarLoop_zeroK c fuel _ A
      · rw [if_neg hpar]
        have hk1 : 1 ≤ k.fdiv 2 := by
          rw [hmod] at hpar
          rw [hdiv]
          omega
        exact ih R (k.fdiv 2) hk1 (by rw [hdiv]; omega) hstab

/-- When doubling stabilises after one step (as happens over F₂), scalar
multiplication by any positive scalar is determined by whether the scalar is
1, odd, or even. -/
theorem scalarMultiply_form (c : CurveParams) {P : Point} (hPaff : P.isInfinity = false)
    {d : Int} (hd : 1 ≤ d)
    (hZZ : addPoints (Zpt c P) (Zpt c P) c = Zpt c P)
    (hWZ : addPoints (Wpt c P) (Zpt c P) c = Wpt c P) :
    scalarMultiply d P c =
      if d = 1 then P else if d.tmod 2 = 1 then Wpt c P else Zpt c P := by
  have hdiv : d.fdiv 2 = d / 2 := Int.fdiv_eq_ediv d (by norm_num)
  have hmod : d.tmod 2 = d % 2 := Int.tmod_eq_emod (by omega) (by norm_num)
  rw [scalarMultiply, if_neg (by simp [hPaff]; omega)]
  rw [scalarLoop, if_pos (by omega)]
  rw [addPoints_inf_left]
  by_cases hd1 : d = 1
  · subst hd1
    rw [if_pos (show (1 : Int).tmod 2 = 1 by decide)]
    rw [if_pos rfl]
    show scalarLoop c _ P (addPoints P P c) ((1 : Int).fdiv 2) = P
    rw [show (1 : Int).fdiv 2 = 0 from rfl]
    exact scalarLoop_zeroK c _ P _
  · by_cases hpar : d.tmod 2 = 1
    · rw [if_pos hpar, if_neg hd1, if_pos hpar]
      show scalarLoop c d.natAbs P (addPoints P P c) (d.fdiv 2) = Wpt c P
      rw [show addPoints P P c = Zpt c P from rfl]
      have hk1 : 1 ≤ d.fdiv 2 := by
        rw [hmod] at hpar
        rw [hdiv]
        omega
      rw [scalarLoop_stable c (Zpt c P) hZZ d.natAbs P (d.fdiv 2) hk1
        (by rw [hdiv]; omega) hWZ]
      rfl
    · rw [if_neg hpar, if_neg hd1, if_neg hpar]
      show scalarLoop c d.natAbs POINT_AT_INFINITY (addPoints P P c) (d.fdiv 2) = Zpt c P
      rw [show addPoints P P c = Zpt c P from rfl]
      have hk1 : 1 ≤ d.fdiv 2 := by
        rw [hmod] at hpar
        rw [hdiv]
        omega
      have hZinf : addPoints POINT_AT_INFINITY (Zpt c P) c = Zpt c P :=
        addPoints_inf_left (Zpt c P)
      rw [scalarLoop_stable c (Zpt c P) hZZ d.natAbs POINT_AT_INFINITY (d.fdiv 2) hk1
        (by rw [hdiv]; omega) (by rw [hZinf, hZZ])]
      exact hZinf

/-! ### Reduction of the F₂ case to a concrete curve -/

theorem mod_add_congr (x a m : Int) (hm : 0 < m) :
    mod (x + a) m = mod (x + mod a m) m := by
  rw [mod_eq_emod _ hm, mod_eq_emod _ hm, mod_eq_emod a hm]
  conv_lhs => rw [Int.add_emod]
  conv_rhs => rw [Int.add_emod, Int.emod_emod_of_dvd a (dvd_refl m)]

/-- A concrete stand-in curve over F₂ carrying only the reduced coefficient
`a`; `addPoints` reads nothing else. -/
def p2Curve (a : Int) : CurveParams :=
  { a := a, b := 0, p := 2, G := POINT_AT_INFINITY, n := 0, useFp := true }

theorem addPoints_p2 {c : CurveParams} (hfp : c.useFp = true) (hp2 : c.p = 2)
    (P Q : Point) : addPoints P Q c = addPoints P Q (p2Curve (mod c.a 2)) := by
  unfold addPoints p2Curve
  rw [hfp, hp2]
  dsimp only
  rw [mod_add_congr (3 * (P.x.getD 0) * (P.x.getD 0)) c.a 2 (by norm_num)]

theorem scalarLoop_congr_add {c c' : CurveParams}
    (h : ∀ P Q, addPoints P Q c = addPoints P Q c') :
    ∀ (fuel : Nat) (R A : Point) (k : Int),
      scalarLoop c fuel R A k = scalarLoop c' fuel R A k := by
  intro fuel
  induction fuel with
  | zero => intro R A k; rfl
  | succ fuel ih =>
      intro R A k
      simp only [scalarLoop, h, ih]

theorem scalarMultiply_p2 {c : CurveParams} (hfp : c.useFp = true) (hp2 : c.p = 2)
    (k : Int) (P : Point) :
    scalarMultiply k P c = scalarMultiply k P (p2Curve (mod c.a 2)) := by
  unfold scalarMultiply
  rw [scalarLoop_congr_add (addPoints_p2 hfp hp2)]

/-! ### ECDH symmetry from the stabilised form of scalar multiplication -/

theorem ecdh_symm_of_form (c : CurveParams) (G : Point) (hGaff : G.isInfinity = false)
    (hZZ : addPoints (Zpt c G) (Zpt c G) c = Zpt c G)
    (hWZ : addPoints (Wpt c G) (Zpt c G) c = Wpt c G)
    (hZcase : Zpt c G = POINT_AT_INFINITY ∨ ((Zpt c G).isInfinity = false ∧
      addPoints (Zpt c (Zpt c G)) (Zpt c (Zpt c G)) c = Zpt c (Zpt c G) ∧
      addPoints (Wpt c (Zpt c G)) (Zpt c (Zpt c G)) c = Wpt c (Zpt c G)))
    (hWcase : Wpt c G = POINT_AT_INFINITY ∨ ((Wpt c G).isInfinity = false ∧
      addPoints (Zpt c (Wpt c G)) (Zpt c (Wpt c G)) c = Zpt c (Wpt c G) ∧
      addPoints (Wpt c (Wpt c G)) (Zpt c (Wpt c G)) c = Wpt c (Wpt c G)))
    (hcross : (if Zpt c G = POINT_AT_INFINITY then POINT_AT_INFINITY
        else Wpt c (Zpt c G)) =
      (if Wpt c G = POINT_AT_INFINITY then POINT_AT_INFINITY else Zpt c (Wpt c G)))
    (dA dB : Int) (hdA : 1 ≤ dA) (hdB : 1 ≤ dB) :
    scalarMultiply dA (scalarMultiply dB G c) c =
      scalarMultiply dB (scalarMultiply dA G c) c := by
  have hform : ∀ d : Int, 1 ≤ d → scalarMultiply d G c =
      if d = 1 then G else if d.tmod 2 = 1 then Wpt c G else Zpt c G :=
    fun d hd => scalarMultiply_form c hGaff hd hZZ hWZ
  have actZ : ∀ d : Int, 1 ≤ d → scalarMultiply d (Zpt c G) c =
      if Zpt c G = POINT_AT_INFINITY then POINT_AT_INFINITY
      else if d = 1 then Zpt c G
      else if d.tmod 2 = 1 then Wpt c (Zpt c G) else Zpt c (Zpt c G) := by
    intro d hd
    rcases hZcase with hinf | ⟨haff, h1, h2⟩
    · rw [if_pos hinf, hinf]
      exact scalarMultiply_inf d c
    · rw [if_neg (by intro h; rw [h] at haff; exact absurd haff (by decide))]
      exact scalarMultiply_form c haff hd h1 h2
  have actW : ∀ d : Int, 1 ≤ d → scalarMultiply d (Wpt c G) c =
      if Wpt c G = POINT_AT_INFINITY then POINT_AT_INFINITY
      else if d = 1 then Wpt c G
      else if d.tmod 2 = 1 then Wpt c (Wpt c G) else Zpt c (Wpt c G) := by
    intro d hd
    rcases hWcase with hinf | ⟨haff, h1, h2⟩
    · rw [if_pos hinf, hinf]
      exact scalarMultiply_inf d c
    · rw [if_neg (by intro h; rw [h] at haff; exact absurd haff (by decide))]
      exact scalarMultiply_form c haff hd h1 h2
  have hGor : G = POINT_AT_INFINITY ∨ G.isInfinity = false := Or.inr hGaff
  have hZor : Zpt c G = POINT_AT_INFINITY ∨ (Zpt c G).isInfinity = false := by
    rcases hZcase with h | ⟨h, _⟩
    · exact Or.inl h
    · exact Or.inr h
  have hWor : Wpt c G = POINT_AT_INFINITY ∨ (Wpt c G).isInfinity = false := by
    rcases hWcase with h | ⟨h, _⟩
    · exact Or.inl h
    · exact Or.inr h
  rw [hform dA hdA, hform dB hdB]
  by_cases hA1 : dA = 1
  · by_cases hB1 : dB = 1
    · rw [if_pos hA1, if_pos hB1, hA1, hB1]
    · by_cases hBp : dB.tmod 2 = 1
      · rw [if_pos hA1, if_neg hB1, if_pos hBp, hA1, scalarMultiply_one c hWor,
          hform dB hdB, if_neg hB1, if_pos hBp]
      · rw [if_pos hA1, if_neg hB1, if_neg hBp, hA1, scalarMultiply_one c hZor,
          hform dB hdB, if_neg hB1, if_neg hBp]
  · by_cases hB1 : dB = 1
    · by_cases hAp : dA.tmod 2 = 1
      · rw [if_neg hA1, if_pos hB1, if_pos hAp, hB1, scalarMultiply_one c hWor,
          hform dA hdA, if_neg hA1, if_pos hAp]
      · rw [if_neg hA1, if_pos hB1, if_neg hAp, hB1, scalarMultiply_one c hZor,
          hform dA hdA, if_neg hA1, if_neg hAp]
    · by_cases hAp : dA.tmod 2 = 1
      · by_cases hBp : dB.tmod 2 = 1
        · rw [if_neg hA1, if_neg hB1, if_pos hAp, if_pos hBp, actW dA hdA,
            actW dB hdB, if_neg hA1, if_neg hB1, if_pos hAp, if_pos hBp]
        · rw [if_neg hA1, if_neg hB1, if_pos hAp, if_neg hBp, actZ dA hdA,
            actW dB hdB, if_neg hA1, if_neg hB1, if_pos hAp, if_neg hBp]
          exact hcross
      · by_cases hBp : dB.tmod 2 = 1
        · rw [if_neg hA1, if_neg hB1, if_neg hAp, if_pos hBp, actW dA hdA,
            actZ dB hdB, if_neg hA1, if_neg hB1, if_neg hAp, if_pos hBp]
          exact hcross.symm
        · rw [if_neg hA1, if_neg hB1, if_neg hAp, if_neg hBp, actZ dA hdA,
            actZ dB hdB, if_neg hA1, if_neg hB1, if_neg hAp, if_neg hBp]

/-- Claim C1 (amended): ECDH shared-secret symmetry holds on every
finite-field curve with prime modulus whose base point passes isOnCurve and
is canonically represented (affine coordinates reduced into [0, p), or
marked infinite): for private scalars dA, dB in [1, n-1] both parties
derive the same point. -/
theorem ecdh_shared_secret_symmetric (c : CurveParams) (p : ℕ) (hp : Nat.Prime p)
    (hcp : c.p = (p : Int)) (hfp : c.useFp = true)
    (hG : isOnCurve c.G c = true) (hcan : canonicalPoint c.G c)
    (dA dB : Int) (hdA : 1 ≤ dA ∧ dA ≤ c.n - 1) (hdB : 1 ≤ dB ∧ dB ≤ c.n - 1) :
    deriveSharedSecret dA (computePublicKey dB c) c =
      deriveSharedSecret dB (computePublicKey dA c) c := by
  obtain ⟨hdA1, _⟩ := hdA
  obtain ⟨hdB1, _⟩ := hdB
  unfold deriveSharedSecret computePublicKey
  rcases hcan with hinf | ⟨gx, gy, hGeq, hx0, hx1, hy0, hy1⟩
  · have h1 : ∀ d : Int, scalarMultiply d c.G c = POINT_AT_INFINITY := by
      intro d
      rw [scalarMultiply, if_pos (Or.inr hinf)]
    rw [h1, h1, scalarMultiply_inf, scalarMultiply_inf]
  · by_cases hp2 : p = 2
    · subst hp2
      have hcp2 : c.p = 2 := by exact_mod_cast hcp
      rw [hcp2] at hx1 hy1
      have hred : ∀ (k : Int) (P : Point),
          scalarMultiply k P c = scalarMultiply k P (p2Curve (mod c.a 2)) :=
        scalarMultiply_p2 hfp hcp2
      rw [hGeq]
      simp only [hred]
      have ha2 : mod c.a 2 = 0 ∨ mod c.a 2 = 1 := by
        have h0 := mod_nonneg c.a (show (0 : Int) < 2 by norm_num)
        have h1 := mod_lt c.a (show (0 : Int) < 2 by norm_num)
        omega
      have hgx : gx = 0 ∨ gx = 1 := by omega
      have hgy : gy = 0 ∨ gy = 1 := by omega
      rcases ha2 with h | h <;> rw [h] <;> rcases hgx with h' | h' <;> subst h' <;>
        rcases hgy with h2 | h2 <;> subst h2 <;>
        exact ecdh_symm_of_form _ _ (by decide) (by decide) (by decide) (by decide)
          (by decide) (by decide) dA dB hdA1 hdB1
    · by_cases hgy0 : gy = 0
      · subst hgy0
        rw [hGeq]
        rw [scalarMultiply_yzero gx hdB1, scalarMultiply_yzero gx hdA1]
        by_cases pA : dA.tmod 2 = 1 <;> by_cases pB : dB.tmod 2 = 1
        · rw [if_pos pA, if_pos pB, scalarMultiply_yzero gx hdA1, if_pos pA,
            scalarMultiply_yzero gx hdB1, if_pos pB]
        · rw [if_pos pA, if_neg pB, scalarMultiply_inf,
            scalarMultiply_yzero gx hdB1, if_neg pB]
        · rw [if_neg pA, if_pos pB, scalarMultiply_yzero gx hdA1, if_neg pA,
            scalarMultiply_inf]
        · rw [if_neg pA, if_neg pB, scalarMultiply_inf, scalarMultiply_inf]
      · haveI : Fact (Nat.Prime p) := ⟨hp⟩
        rw [hcp] at hx1 hy1
        have hGmk : c.G = mkPt ((gx : ZMod p)) ((gy : ZMod p)) := by
          rw [hGeq]
          exact (mkPt_of_canonical p hx0 hx1 hy0 hy1).symm
        have hGon : isOnCurve (mkPt ((gx : ZMod p)) ((gy : ZMod p))) c = true := by
          rw [← hGmk]
          exact hG
        have he := (equation_mk_iff hcp hfp _ _).mp hGon
        have hyne : ((gy : ZMod p)) ≠ 0 := by
          intro h0
          apply hgy0
          have hv := val_intCast_of_range p hy0 hy1
          rw [h0] at hv
          simpa using hv.symm
        have hns := nonsingular_of_equation_y_ne hp2 he hyne
        have htc : toCode (WeierstrassCurve.Affine.Point.some hns) = c.G := by
          rw [hGmk]
          rfl
        rw [← htc]
        rw [scalarMultiply_toCode hcp hfp hp2 dB (by omega)
          (WeierstrassCurve.Affine.Point.some hns)]
        rw [scalarMultiply_toCode hcp hfp hp2 dA (by omega)
          (WeierstrassCurve.Affine.Point.some hns)]
        rw [scalarMultiply_toCode hcp hfp hp2 dA (by omega)
          (dB.toNat • WeierstrassCurve.Affine.Point.some hns)]
        rw [scalarMultiply_toCode hcp hfp hp2 dB (by omega)
          (dA.toNat • WeierstrassCurve.Affine.Point.some hns)]
        congr 1
        rw [smul_smul, smul_smul, Nat.mul_comm]

/-- Claim C1 witness: on the order-37 curve the canonical on-curve base
point (9, 197) gives the same shared secret for the key pair (2, 3) in both
directions. -/
theorem ecdh_shared_secret_symmetric_witness :
    isOnCurve order37Curve.G order37Curve = true ∧
      deriveSharedSecret 2 (computePublicKey 3 order37Curve) order37Curve =
        deriveSharedSecret 3 (computePublicKey 2 order37Curve) order37Curve :=
  ⟨by decide,
    ecdh_shared_secret_symmetric order37Curve 223 (by norm_num) rfl rfl (by decide)
      (Or.inr ⟨9, 197, rfl, by decide, by decide, by decide, by decide⟩) 2 3
      ⟨by decide, by decide⟩ ⟨by decide, by decide⟩⟩

/-! ### ECDSA sign/verify roundtrip -/

theorem natCast_toNat_zmod (q : ℕ) {a : Int} (h : 0 ≤ a) :
    ((a.toNat : ℕ) : ZMod q) = ((a : Int) : ZMod q) := by
  rw [← Int.cast_natCast, Int.toNat_of_nonneg h]

theorem nsmul_mod_congr {M : Type _} [AddCommMonoid M] (A : M) (q : ℕ)
    (hA : q • A = 0) {m₁ m₂ : ℕ} (h : m₁ % q = m₂ % q) : m₁ • A = m₂ • A := by
  have key : ∀ m : ℕ, m • A = (m % q) • A := by
    intro m
    have hm : m = m % q + q * (m / q) := (Nat.mod_add_div m q).symm
    conv_lhs => rw [hm]
    rw [add_nsmul, mul_nsmul, hA, nsmul_zero, add_zero]
  rw [key m₁, key m₂, h]

theorem ecdsa_congruence (q : ℕ) (z r s w k d kInv : Int)
    (hs : ((s : ZMod q)) = ((kInv : ZMod q)) *
      (((z : ZMod q)) + ((r : ZMod q)) * ((d : ZMod q))))
    (hkInv : ((kInv : ZMod q)) * ((k : ZMod q)) = 1)
    (hw : ((w : ZMod q)) * ((s : ZMod q)) = 1) :
    ((z : ZMod q)) * ((w : ZMod q)) +
      ((r : ZMod q)) * ((w : ZMod q)) * ((d : ZMod q)) = ((k : ZMod q)) := by
  have hsum : ((z : ZMod q)) + ((r : ZMod q)) * ((d : ZMod q)) =
      ((k : ZMod q)) * ((s : ZMod q)) := by
    calc ((z : ZMod q)) + ((r : ZMod q)) * ((d : ZMod q))
        = (((kInv : ZMod q)) * ((k : ZMod q))) *
            (((z : ZMod q)) + ((r : ZMod q)) * ((d : ZMod q))) := by
          rw [hkInv, one_mul]
      _ = ((k : ZMod q)) * (((kInv : ZMod q)) *
            (((z : ZMod q)) + ((r : ZMod q)) * ((d : ZMod q)))) := by ring
      _ = ((k : ZMod q)) * ((s : ZMod q)) := by rw [← hs]
  calc ((z : ZMod q)) * ((w : ZMod q)) +
      ((r : ZMod q)) * ((w : ZMod q)) * ((d : ZMod q))
      = (((z : ZMod q)) + ((r : ZMod q)) * ((d : ZMod q))) * ((w : ZMod q)) := by ring
    _ = ((k : ZMod q)) * ((s : ZMod q)) * ((w : ZMod q)) := by rw [hsum]
    _ = ((k : ZMod q)) * (((w : ZMod q)) * ((s : ZMod q))) := by ring
    _ = ((k : ZMod q)) := by rw [hw, mul_one]

/-- Every signature produced by `signMessage` on a working curve that shares
the geometric data of `c` and has working order `q` verifies against the
public key derived from the same private key on `c`. -/
theorem signMessage_verified_aux (message : List Int) (d : Int) (c : CurveParams)
    (p q : ℕ) (hp : Nat.Prime p) (hq : Nat.Prime q) (hcp : c.p = (p : Int))
    (hodd : p ≠ 2) (hfp : c.useFp = true) (gx gy : Int)
    (hGeq : c.G = { x := some gx, y := some gy, isInfinity := false })
    (hx0 : 0 ≤ gx) (hx1 : gx < c.p) (hy0 : 0 ≤ gy) (hy1 : gy < c.p) (hgy0 : gy ≠ 0)
    (hG : isOnCurve c.G c = true) (hordq : orderFor c = (q : Int))
    (hqG : (scalarMultiply ((q : Int)) c.G c).isInfinity = true) (hd : 1 ≤ d) :
    ∀ (ks : List Int) (c' : CurveParams), c'.a = c.a → c'.p = c.p → c'.useFp = c.useFp →
      c'.G = c.G → orderFor c' = (q : Int) →
      ∀ (sig : Signature), signMessage message d c' ks = some sig →
      verifySignature message sig (computePublicKey d c) c = true := by
  intro ks
  induction ks with
  | nil =>
      intro c' _ _ _ _ _ sig hsig
      simp [signMessage] at hsig
  | cons k ks ih =>
      intro c' ha' hp' hf' hG' hn' sig hsig
      have hsm : ∀ (k0 : Int) (P : Point), scalarMultiply k0 P c' = scalarMultiply k0 P c :=
        fun k0 P => scalarMultiply_ext ha' hp' hf' k0 P
      simp only [signMessage, hn', hG', hsm] at hsig
      have hstep : orderFor ({ a := c'.a, b := c'.b, p := c'.p, G := c.G, n := ((q : Int)), useFp := c'.useFp } : CurveParams) = ((q : Int)) := by
        have hR : ({ a := c'.a, b := c'.b, p := c'.p, G := c.G, n := ((q : Int)), useFp := c'.useFp } : CurveParams) = { c' with n := ((q : Int)) } := by
          rw [hG']
        have he : ({ c' with n := ((q : Int)) } : CurveParams) =
            { c' with n := orderFor c' } := by rw [hn']
        rw [hR, he, orderFor_update c']
        exact hn'
      split_ifs at hsig with h1 h2 h3
      · exact ih { a := c'.a, b := c'.b, p := c'.p, G := c.G, n := ((q : Int)), useFp := c'.useFp } ha' hp' hf' rfl hstep sig hsig
      · exact ih { a := c'.a, b := c'.b, p := c'.p, G := c.G, n := ((q : Int)), useFp := c'.useFp } ha' hp' hf' rfl hstep sig hsig
      · exact ih { a := c'.a, b := c'.b, p := c'.p, G := c.G, n := ((q : Int)), useFp := c'.useFp } ha' hp' hf' rfl hstep sig hsig
      · have hinj := Option.some.inj hsig
        have hqpos : (0 : Int) < ((q : Int)) := by exact_mod_cast hq.pos
        push_neg at h1
        obtain ⟨h1i, h1x⟩ := h1
        have hk1 : 1 ≤ k := by
          by_contra hno
          push_neg at hno
          apply h1i
          by_cases hk0 : k = 0
          · rw [hk0, scalarMultiply, if_pos (Or.inl rfl)]
            rfl
          · have hGaff : ¬(c.G.isInfinity = true) := by rw [hGeq]; simp
            rw [scalarMultiply, if_neg (by push_neg; exact ⟨hk0, hGaff⟩)]
            have hloop : ∀ (fuel : Nat) (R A : Point), scalarLoop c fuel R A k = R := by
              intro fuel R A
              cases fuel with
              | zero => rfl
              | succ fuel => rw [scalarLoop, if_neg (by omega)]
            rw [hloop]
            rfl
        have hk0' : (0 : Int) ≤ k := by omega
        have hd0 : (0 : Int) ≤ d := by omega
        haveI : Fact (Nat.Prime p) := ⟨hp⟩
        haveI : NeZero q := ⟨hq.ne_zero⟩
        rw [hcp] at hx1 hy1
        have hGmk : c.G = mkPt ((gx : ZMod p)) ((gy : ZMod p)) := by
          rw [hGeq]
          exact (mkPt_of_canonical p hx0 hx1 hy0 hy1).symm
        have hGon : isOnCurve (mkPt ((gx : ZMod p)) ((gy : ZMod p))) c = true := by
          rw [← hGmk]
          exact hG
        have he := (equation_mk_iff hcp hfp _ _).mp hGon
        have hyne : ((gy : ZMod p)) ≠ 0 := by
          intro h0
          apply hgy0
          have hv := val_intCast_of_range p hy0 hy1
          rw [h0] at hv
          simpa using hv.symm
        have hns := nonsingular_of_equation_y_ne hodd he hyne
        have htc : toCode (WeierstrassCurve.Affine.Point.some hns) = c.G := by
          rw [hGmk]
          rfl
        have hqsmul : q • (WeierstrassCurve.Affine.Point.some hns) =
            (0 : (curveW c p).Point) := by
          have h' := hqG
          rw [← htc, scalarMultiply_toCode hcp hfp hodd ((q : Int)) (Int.natCast_nonneg q)] at h'
          have hq' : ((q : Int)).toNat = q := by omega
          rw [hq'] at h'
          exact (toCode_isInf_iff _).mp h'
        have hkG : scalarMultiply k c.G c =
            toCode (k.toNat • WeierstrassCurve.Affine.Point.some hns) := by
          rw [← htc, scalarMultiply_toCode hcp hfp hodd k hk0']
        have hknz : ((k : ZMod q)) ≠ 0 := by
          intro h0
          have hdvd : ((q : Int)) ∣ k := (ZMod.intCast_zmod_eq_zero_iff_dvd k q).mp h0
          have hdvdn : q ∣ k.toNat := by
            obtain ⟨t, ht⟩ := hdvd
            have ht0 : 0 ≤ t := by
              rcases le_or_lt 0 t with h | h
              · exact h
              · exfalso
                have hneg : (q : Int) * t < 0 := mul_neg_of_pos_of_neg hqpos h
                omega
            have h1' : (k.toNat : Int) = (q : Int) * ((t.toNat : Int)) := by
              rw [Int.toNat_of_nonneg hk0', Int.toNat_of_nonneg ht0]
              exact ht
            exact ⟨t.toNat, by exact_mod_cast h1'⟩
          apply h1i
          obtain ⟨t, ht⟩ := hdvdn
          rw [hkG, ht, mul_nsmul, hqsmul, nsmul_zero, toCode_zero]
          rfl
        have hr : sig.r = mod ((scalarMultiply k c.G c).x.getD 0) ((q : Int)) := by
          rw [← hinj]
        have hs' : sig.s = mod (modInverse k ((q : Int)) *
            ((simpleHash message).tmod ((q : Int)) +
              mod ((scalarMultiply k c.G c).x.getD 0) ((q : Int)) * d)) ((q : Int)) := by
          rw [← hinj]
        have hs : sig.s = mod (modInverse k ((q : Int)) *
            ((simpleHash message).tmod ((q : Int)) + sig.r * d)) ((q : Int)) := by
          rw [hs', ← hr]
        have hrpos : 0 < sig.r := by
          rw [hr]
          have h0 := mod_nonneg ((scalarMultiply k c.G c).x.getD 0) hqpos
          omega
        have hrlt : sig.r < ((q : Int)) := by
          rw [hr]
          exact mod_lt _ hqpos
        have hspos : 0 < sig.s := by
          rw [hs']
          have h0 := mod_nonneg (modInverse k ((q : Int)) *
            ((simpleHash message).tmod ((q : Int)) +
              mod ((scalarMultiply k c.G c).x.getD 0) ((q : Int)) * d)) hqpos
          omega
        have hslt : sig.s < ((q : Int)) := by
          rw [hs']
          exact mod_lt _ hqpos
        have hsne : ((sig.s : ZMod q)) ≠ 0 := by
          intro h0
          have hv := val_intCast_of_range q (le_of_lt hspos) hslt
          rw [h0] at hv
          simp [ZMod.val_zero] at hv
          omega
        have hkinv := modInverse_zmod q hq k hknz
        have hwinv := modInverse_zmod q hq sig.s hsne
        have hs_cast : ((sig.s : ZMod q)) = ((modInverse k ((q : Int)) : ZMod q)) *
            ((((simpleHash message).tmod ((q : Int)) : ZMod q)) +
              ((sig.r : ZMod q)) * ((d : ZMod q))) := by
          rw [hs, intCast_mod_eq q]
          push_cast
          ring
        have hu10 : (0 : Int) ≤ mod ((simpleHash message).tmod ((q : Int)) *
            modInverse sig.s ((q : Int))) ((q : Int)) := mod_nonneg _ hqpos
        have hu20 : (0 : Int) ≤ mod (sig.r * modInverse sig.s ((q : Int))) ((q : Int)) :=
          mod_nonneg _ hqpos
        have hcast : (((mod ((simpleHash message).tmod ((q : Int)) *
              modInverse sig.s ((q : Int))) ((q : Int))).toNat +
              (mod (sig.r * modInverse sig.s ((q : Int))) ((q : Int))).toNat * d.toNat : ℕ) :
              ZMod q) = ((k.toNat : ℕ) : ZMod q) := by
          rw [Nat.cast_add, Nat.cast_mul]
          rw [natCast_toNat_zmod q hu10, natCast_toNat_zmod q hu20,
            natCast_toNat_zmod q hd0, natCast_toNat_zmod q hk0']
          rw [intCast_mod_eq q, intCast_mod_eq q]
          push_cast
          exact ecdsa_congruence q ((simpleHash message).tmod ((q : Int))) sig.r sig.s
            (modInverse sig.s ((q : Int))) k d (modInverse k ((q : Int)))
            hs_cast hkinv hwinv
        have hmod := (ZMod.natCast_eq_natCast_iff _ _ _).mp hcast
        have hQpub : computePublicKey d c =
            toCode (d.toNat • WeierstrassCurve.Affine.Point.some hns) := by
          rw [computePublicKey, ← htc, scalarMultiply_toCode hcp hfp hodd d hd0]
        simp only [verifySignature, hordq]
        rw [if_neg (by push_neg; exact ⟨hrpos, hrlt, hspos, hslt⟩)]
        have hpoint : addPoints
            (scalarMultiply (mod ((simpleHash message).tmod ((q : Int)) *
              modInverse sig.s ((q : Int))) ((q : Int))) c.G c)
            (scalarMultiply (mod (sig.r * modInverse sig.s ((q : Int))) ((q : Int)))
              (computePublicKey d c) c) c = scalarMultiply k c.G c := by
          rw [hQpub, ← htc]
          rw [scalarMultiply_toCode hcp hfp hodd _ hu10]
          rw [scalarMultiply_toCode hcp hfp hodd _ hu20]
          rw [scalarMultiply_toCode hcp hfp hodd k hk0']
          rw [toCode_add hcp hfp hodd]
          congr 1
          rw [smul_smul, ← add_nsmul]
          exact nsmul_mod_congr _ q hqsmul hmod
        rw [hpoint]
        rw [if_neg (by push_neg; exact ⟨h1i, h1x⟩)]
        rw [hr]
        exact beq_self_eq_true _

/-- Claim C2 (amended): ECDSA sign-then-verify roundtrips on a finite-field
curve with odd prime modulus whose base point is canonical, on-curve and has
nonzero y-coordinate, provided the working order recovered by the code is a
prime `q` that sends the base point to infinity under `scalarMultiply`: any
signature that `signMessage` produces for a private key `d ≥ 1` is accepted
by `verifySignature` against the matching public key. -/
theorem ecdsa_sign_verify_roundtrip (message : List Int) (d : Int) (c : CurveParams)
    (p q : ℕ) (hp : Nat.Prime p) (hq : Nat.Prime q) (hcp : c.p = (p : Int))
    (hodd : p ≠ 2) (hfp : c.useFp = true) (gx gy : Int)
    (hGeq : c.G = { x := some gx, y := some gy, isInfinity := false })
    (hx0 : 0 ≤ gx) (hx1 : gx < c.p) (hy0 : 0 ≤ gy) (hy1 : gy < c.p) (hgy0 : gy ≠ 0)
    (hG : isOnCurve c.G c = true) (hordq : orderFor c = (q : Int))
    (hqG : (scalarMultiply ((q : Int)) c.G c).isInfinity = true) (hd : 1 ≤ d)
    (ks : List Int) (sig : Signature) (hsig : signMessage message d c ks = some sig) :
    verifySignature message sig (computePublicKey d c) c = true :=
  signMessage_verified_aux message d c p q hp hq hcp hodd hfp gx gy hGeq
    hx0 hx1 hy0 hy1 hgy0 hG hordq hqG hd ks c rfl rfl rfl rfl hordq sig hsig

/-- Claim C2 witness: on the order-37 curve, the signature (34, 11) that
signing produces with private key 5 and nonce 2 verifies against the
matching public key. -/
theorem ecdsa_sign_verify_roundtrip_witness :
    signMessage [] 5 order37Curve [2] = some { r := 34, s := 11 } ∧
      verifySignature [] { r := 34, s := 11 } (computePublicKey 5 order37Curve)
        order37Curve = true :=
  ⟨by decide,
    ecdsa_sign_verify_roundtrip [] 5 order37Curve 223 37 (by norm_num) (by norm_num)
      rfl (by norm_num) rfl 9 197 rfl (by decide) (by decide) (by decide) (by decide)
      (by decide) (by decide) (by decide) (by decide) (by decide) [2]
      { r := 34, s := 11 } (by decide)⟩

end CipherArc
